import Mathlib

/-!
Verification of `integration/scripts/toollist_to_monocore.py`.

The script converts an HDL tool filelist into a self-contained CAPI2 core
manifest plus a flattened copy of every referenced file.  We give a shallow
embedding of its logic:

  * Python `str` is modelled by `String`, Python `pathlib.Path` (always used
    resolved/absolute in the script) by `List String` of path components.
  * The filesystem is modelled by a finite association list from absolute
    path components to the file's lines; directories, symlinks and `..`
    segments are outside the model.
  * Python sets are modelled by duplicate-free accumulation into lists
    (only membership is ever observed).
  * `re.match` against the script's six fixed patterns is implemented
    character by character; `shlex.split` is modelled as whitespace
    splitting (the behaviour on inputs without quotes or escapes).
  * The unbounded loops of the script (the collision-rename `while`, the
    recursive `-f` descent, and the include worklist) are written with an
    explicit bound, and theorems show the bound is never hit.
-/

/-! ### Character and string helpers -/

/-- Python `\s` (ASCII fragment): the whitespace characters recognised by
`str.strip`, `str.split` and the `\s` regex class. -/
def isSpaceChar (c : Char) : Bool :=
  c = ' ' || c = '\t' || c = '\n' || c = '\r' || c = '\x0b' || c = '\x0c'

/-- Python regex `\w` (ASCII fragment). -/
def isWordChar (c : Char) : Bool :=
  ('a' ≤ c && c ≤ 'z') || ('A' ≤ c && c ≤ 'Z') || ('0' ≤ c && c ≤ '9') || c = '_'

/-- Python regex class `[a-zA-Z_]`, the first character of a macro name. -/
def isIdentStartChar (c : Char) : Bool :=
  ('a' ≤ c && c ≤ 'z') || ('A' ≤ c && c ≤ 'Z') || c = '_'

/-- Match a literal character sequence at the head of the input, returning
the rest of the input on success. -/
def dropLit : List Char → List Char → Option (List Char)
  | [], cs => some cs
  | _ :: _, [] => none
  | l :: ls, c :: cs => if c = l then dropLit ls cs else none

/-- Python `str.strip()` on the character list. -/
def pyStripChars (cs : List Char) : List Char :=
  ((cs.dropWhile isSpaceChar).reverse.dropWhile isSpaceChar).reverse

/-- Python `str.strip()`. -/
def pyStrip (s : String) : String := String.mk (pyStripChars s.data)

/-- Membership test on a list, modelling Python `in` for sets and lists. -/
def memB {α : Type} [DecidableEq α] : List α → α → Bool
  | [], _ => false
  | x :: xs, a => if x = a then true else memB xs a

theorem memB_iff {α : Type} [DecidableEq α] (xs : List α) (a : α) :
    memB xs a = true ↔ a ∈ xs := by
  induction xs with
  | nil => simp [memB]
  | cons x xs ih =>
    by_cases h : x = a
    · subst h; simp [memB]
    · simp [memB, h, ih, Ne.symm h]

/-- Python `str.startswith`. -/
def leadsChars : List Char → List Char → Bool
  | [], _ => true
  | _ :: _, [] => false
  | a :: as, b :: bs => a = b && leadsChars as bs

/-- `strStarts s p`: Python `s.startswith(p)`. -/
def strStarts (s p : String) : Bool := leadsChars p.data s.data

/-- `strEnds s p`: Python `s.endswith(p)`. -/
def strEnds (s p : String) : Bool := leadsChars p.data.reverse s.data.reverse

/-- Python `s[n:]`. -/
def strDrop (s : String) (n : Nat) : String := String.mk (s.data.drop n)

/-- Python `str.lower()` (ASCII fragment). -/
def lowerStr (s : String) : String := String.mk (s.data.map Char.toLower)

/-- Split on a separator character, keeping empty groups,
modelling Python `str.split(sep)`. -/
def splitKeep (sep : Char) : List Char → List (List Char)
  | [] => [[]]
  | c :: rest =>
    if c = sep then [] :: splitKeep sep rest
    else
      match splitKeep sep rest with
      | g :: gs => (c :: g) :: gs
      | [] => [[c]]

/-- Python `part.split("=", 1)[0]`: the text before the first `=`. -/
def takeUntilEq (s : String) : String := String.mk (s.data.takeWhile (fun c => c ≠ '='))

/-- Whitespace tokenisation of a line.  This models `shlex.split` on inputs
that contain no quotes or escape characters (the only inputs the claims and
the repository's filelists exercise). -/
def wsTokensGo : List Char → List Char → List String
  | [], acc => if acc = [] then [] else [String.mk acc.reverse]
  | c :: rest, acc =>
    if isSpaceChar c then
      if acc = [] then wsTokensGo rest []
      else String.mk acc.reverse :: wsTokensGo rest []
    else wsTokensGo rest (c :: acc)

/-- Tokenise one filelist line. -/
def wsTokens (s : String) : List String := wsTokensGo s.data []

/-! ### The conditional-compilation scanner's regular expressions

The script matches each (stripped) line against
`RE_IFDEF`, `RE_IFNDEF`, `RE_ELSE`, `RE_ELSIF`, `RE_ENDIF`, `RE_INCLUDE`
in that order; each pattern is anchored at the start by `re.match`. -/

/-- Match `^\s*LIT\s+([a-zA-Z_]\w*)` and return the captured macro name:
the shape of `RE_IFDEF`, `RE_IFNDEF` and `RE_ELSIF`. -/
def matchDirIdent (lit : String) (cs : List Char) : Option String :=
  match dropLit lit.data (cs.dropWhile isSpaceChar) with
  | none => none
  | some r1 =>
    match r1 with
    | [] => none
    | c :: r2 =>
      if isSpaceChar c then
        let r3 := r2.dropWhile isSpaceChar
        match r3 with
        | [] => none
        | d :: _ => if isIdentStartChar d then some (String.mk (r3.takeWhile isWordChar)) else none
      else none

/-- Match `^\s*LIT\b`: the shape of `RE_ELSE` and `RE_ENDIF`. -/
def matchDirBare (lit : String) (cs : List Char) : Bool :=
  match dropLit lit.data (cs.dropWhile isSpaceChar) with
  | none => false
  | some [] => true
  | some (c :: _) => !isWordChar c

/-- Match `RE_INCLUDE = ^\s*`include\s+"([^"]+)"` and return the captured
include name. -/
def matchIncludeChars (cs : List Char) : Option String :=
  match dropLit "`include".data (cs.dropWhile isSpaceChar) with
  | none => none
  | some r1 =>
    match r1 with
    | [] => none
    | c :: r2 =>
      if isSpaceChar c then
        match r2.dropWhile isSpaceChar with
        | '"' :: r3 =>
          let body := r3.takeWhile (fun d => d ≠ '"')
          if body ≠ [] && (r3.drop body.length) ≠ [] then some (String.mk body) else none
        | _ => none
      else none

/-- The classification of one line by `scan_active_includes`: which of the
six patterns fires first, in the order the script tests them.  (An `elsif`
line can never match `RE_ENDIF` or `RE_INCLUDE`, so folding the script's
fall-through for `elsif` at stack depth 1 into `kElsif` is faithful.) -/
inductive LineKind where
  | kIfdefD (m : String)
  | kIfndefD (m : String)
  | kElse
  | kElsif (m : String)
  | kEndif
  | kInclude (n : String)
  | kOther
deriving DecidableEq

/-- Classify a raw line: `line = raw.strip()` followed by the script's
pattern cascade. -/
def classifyLine (raw : String) : LineKind :=
  let cs := pyStripChars raw.data
  match matchDirIdent "`ifdef" cs with
  | some m => .kIfdefD m
  | none =>
    match matchDirIdent "`ifndef" cs with
    | some m => .kIfndefD m
    | none =>
      if matchDirBare "`else" cs then .kElse
      else
        match matchDirIdent "`elsif" cs with
        | some m => .kElsif m
        | none =>
          if matchDirBare "`endif" cs then .kEndif
          else
            match matchIncludeChars cs with
            | some n => .kInclude n
            | none => .kOther

/-! ### The scanner state machine

`active_stack` is a Python list used as a stack (`append`/`[-1]`/`pop()`);
we keep the top at the head of the Lean list, so the bottom sentinel is the
last element. -/

/-- One line of `scan_active_includes`: transform `(active_stack, yielded)`.
Directives that would pop at stack depth 1 are ignored, exactly as in the
script (the `len(active_stack) > 1` guards). -/
def scanStep (defines : List String) (st : List Bool × List String) (raw : String) :
    List Bool × List String :=
  match st with
  | (stack, acc) =>
    match classifyLine raw with
    | .kIfdefD m => ((stack.headD true && memB defines m) :: stack, acc)
    | .kIfndefD m => ((stack.headD true && !memB defines m) :: stack, acc)
    | .kElse =>
      match stack with
      | prev :: b :: rest => ((b && !prev) :: b :: rest, acc)
      | _ => (stack, acc)
    | .kElsif m =>
      match stack with
      | prev :: b :: rest => ((b && memB defines m && !prev) :: b :: rest, acc)
      | _ => (stack, acc)
    | .kEndif =>
      match stack with
      | _ :: b :: rest => (b :: rest, acc)
      | _ => (stack, acc)
    | .kInclude n => if stack.headD true then (stack, acc ++ [n]) else (stack, acc)
    | .kOther => (stack, acc)

/-- `scan_active_includes`: the include names yielded from the lines of a
file that are active under the current macro set. -/
def scan_active_includes (defines : List String) (lines : List String) : List String :=
  (lines.foldl (scanStep defines) ([true], [])).2

/-- The scanner's final `active_stack` after a list of lines; used to state
the stack invariants. -/
def scanStack (defines : List String) (lines : List String) : List Bool :=
  (lines.foldl (scanStep defines) ([true], [])).1

/-- The bottom element of the scanner stack (`active_stack[0]`). -/
def lastB : List Bool → Bool
  | [] => false
  | [b] => b
  | _ :: b :: rest => lastB (b :: rest)

theorem lastB_cons_of_ne_nil (x : Bool) (l : List Bool) (h : l ≠ []) :
    lastB (x :: l) = lastB l := by
  cases l with
  | nil => exact absurd rfl h
  | cons b rest => rfl

theorem scanStep_stack_inv (defines : List String) (raw : String) (stack : List Bool)
    (acc : List String) (h1 : stack ≠ []) (h2 : lastB stack = true) :
    (scanStep defines (stack, acc) raw).1 ≠ [] ∧
      lastB (scanStep defines (stack, acc) raw).1 = true := by
  cases hc : classifyLine raw with
  | kIfdefD m =>
    simp only [scanStep, hc]
    exact ⟨by simp, by rw [lastB_cons_of_ne_nil _ _ h1]; exact h2⟩
  | kIfndefD m =>
    simp only [scanStep, hc]
    exact ⟨by simp, by rw [lastB_cons_of_ne_nil _ _ h1]; exact h2⟩
  | kElse =>
    simp only [scanStep, hc]
    match stack with
    | [] => exact absurd rfl h1
    | [b] => exact ⟨h1, h2⟩
    | prev :: b :: rest =>
      refine ⟨by simp, ?_⟩
      rw [lastB_cons_of_ne_nil _ _ (by simp)]
      rw [lastB_cons_of_ne_nil _ _ (by simp)] at h2
      exact h2
  | kElsif m =>
    simp only [scanStep, hc]
    match stack with
    | [] => exact absurd rfl h1
    | [b] => exact ⟨h1, h2⟩
    | prev :: b :: rest =>
      refine ⟨by simp, ?_⟩
      rw [lastB_cons_of_ne_nil _ _ (by simp)]
      rw [lastB_cons_of_ne_nil _ _ (by simp)] at h2
      exact h2
  | kEndif =>
    simp only [scanStep, hc]
    match stack with
    | [] => exact absurd rfl h1
    | [b] => exact ⟨h1, h2⟩
    | prev :: b :: rest =>
      refine ⟨by simp, ?_⟩
      rw [lastB_cons_of_ne_nil _ _ (by simp)] at h2
      exact h2
  | kInclude n =>
    simp only [scanStep, hc]
    by_cases ht : stack.headD true
    · simp only [ht, if_pos]
      exact ⟨h1, h2⟩
    · simp only [Bool.not_eq_true] at ht
      simp only [ht, Bool.false_eq_true, if_false]
      exact ⟨h1, h2⟩
  | kOther =>
    simp only [scanStep, hc]
    exact ⟨h1, h2⟩

theorem scanFold_stack_inv (defines : List String) (lines : List String) :
    ∀ (stack : List Bool) (acc : List String), stack ≠ [] → lastB stack = true →
      (lines.foldl (scanStep defines) (stack, acc)).1 ≠ [] ∧
        lastB (lines.foldl (scanStep defines) (stack, acc)).1 = true := by
  induction lines with
  | nil => intro stack acc h1 h2; exact ⟨h1, h2⟩
  | cons l rest ih =>
    intro stack acc h1 h2
    have hstep := scanStep_stack_inv defines l stack acc h1 h2
    simp only [List.foldl_cons]
    have : scanStep defines (stack, acc) l =
        ((scanStep defines (stack, acc) l).1, (scanStep defines (stack, acc) l).2) := rfl
    rw [this]
    exact ih _ _ hstep.1 hstep.2

/-- Claim C10: the scanner's `active_stack` is never empty and its bottom
element stays `true` whatever the input lines (balanced or not); `else`,
`elsif` and `endif` lines seen at stack depth 1 leave the state unchanged
instead of popping, so lines outside any conditional block are scanned as
active. -/
theorem C10_scanner_stack_never_underflows (defines lines : List String) (raw : String)
    (b : Bool) (acc : List String)
    (hdir : classifyLine raw = .kElse ∨ (∃ m, classifyLine raw = .kElsif m) ∨
      classifyLine raw = .kEndif) :
    (scanStack defines lines ≠ [] ∧ lastB (scanStack defines lines) = true) ∧
      scanStep defines ([b], acc) raw = ([b], acc) := by
  constructor
  · exact scanFold_stack_inv defines lines [true] [] (by simp) rfl
  · rcases hdir with h | ⟨m, h⟩ | h <;> simp [scanStep, h]

/-- Witness for C10 at a concrete unbalanced file: two stray `endif`/`else`
lines with no opening `ifdef`. -/
theorem C10_witness :
    (scanStack [] ["`endif", "`include \x22x.svh\x22", "`else"] ≠ [] ∧
      lastB (scanStack [] ["`endif", "`include \x22x.svh\x22", "`else"]) = true) ∧
      scanStep [] ([true], []) "`endif" = ([true], []) :=
  C10_scanner_stack_never_underflows [] ["`endif", "`include \x22x.svh\x22", "`else"]
    "`endif" true [] (Or.inr (Or.inr (by decide)))

/-- Claim C1: on a file whose lines are `ifdef FOO` / `include "a.svh"` /
`else` / `include "b.svh"` / `endif`, with `FOO` undefined, the scanner
yields exactly `["b.svh"]`; and the `else` rule pops the previous branch
flag `prev` and pushes `parent_active AND NOT prev`. -/
theorem C1_conditional_filtering (defines : List String) (l1 l2 l3 l4 l5 : String)
    (line : String) (prev b : Bool) (rest : List Bool) (acc : List String)
    (h1 : classifyLine l1 = .kIfdefD "FOO") (h2 : classifyLine l2 = .kInclude "a.svh")
    (h3 : classifyLine l3 = .kElse) (h4 : classifyLine l4 = .kInclude "b.svh")
    (h5 : classifyLine l5 = .kEndif) (hFoo : "FOO" ∉ defines)
    (hline : classifyLine line = .kElse) :
    scan_active_includes defines [l1, l2, l3, l4, l5] = ["b.svh"] ∧
      scanStep defines (prev :: b :: rest, acc) line = ((b && !prev) :: b :: rest, acc) := by
  have hm : memB defines "FOO" = false := by
    cases hmb : memB defines "FOO" with
    | false => rfl
    | true => exact absurd ((memB_iff defines "FOO").mp hmb) hFoo
  constructor
  · simp [scan_active_includes, scanStep, h1, h2, h3, h4, h5, hm]
  · simp [scanStep, hline]

/-- Witness for C1 at the concrete five-line file with no macros defined. -/
theorem C1_witness :
    scan_active_includes [] ["`ifdef FOO", "`include \x22a.svh\x22", "`else",
        "`include \x22b.svh\x22", "`endif"] = ["b.svh"] ∧
      scanStep [] ([false, true], []) "`else" = ([true && !false, true], []) :=
  C1_conditional_filtering [] "`ifdef FOO" "`include \x22a.svh\x22" "`else"
    "`include \x22b.svh\x22" "`endif" "`else" false true [] []
    (by decide) (by decide) (by decide) (by decide) (by decide) (by decide) (by decide)

/-! ### Paths

A resolved absolute `pathlib.Path` is modelled by its list of components
below the root.  `Path.resolve()` drops empty and `.` segments; `..`
segments and symlinks are outside the model. -/

/-- Join path components with `/` (the textual form of a relative path). -/
def joinComps : List String → String
  | [] => ""
  | [x] => x
  | x :: y :: rest => x ++ "/" ++ joinComps (y :: rest)

/-- Split a path string into components, dropping empty and `.` segments as
`Path.resolve()` does. -/
def strComps (s : String) : List String :=
  ((splitKeep '/' s.data).map String.mk).filter (fun c => c ≠ "" && c ≠ ".")

/-- `_resolve(base, Path(tok))`: absolute tokens stand alone, relative ones
are joined to the base directory. -/
def joinPath (base : List String) (tok : String) : List String :=
  if strStarts tok "/" then strComps tok else base ++ strComps tok

/-- `Path(name).name`: the final path component of an include name. -/
def baseName (s : String) : String := (strComps s).getLastD s

/-- `Path(p).suffix`: the extension of the final component, beginning with
the last dot, empty when the only dot is leading or trailing. -/
def pathSuffix (name : String) : String :=
  let cs := name.data
  let ext := cs.reverse.takeWhile (fun c => c ≠ '.')
  if ext ≠ [] && ext.length + 1 < cs.length then String.mk ('.' :: ext.reverse) else ""

/-- The name (final component) of a resolved path. -/
def origName (p : List String) : String := p.getLastD ""

/-- `os.path.commonprefix` on component lists. -/
def cplLen : List String → List String → Nat
  | a :: as, b :: bs => if a = b then 1 + cplLen as bs else 0
  | _, _ => 0

/-- `os.path.relpath(path, start)` on component lists. -/
def relpath (path start : List String) : String :=
  let k := cplLen path start
  let parts := List.replicate (start.length - k) ".." ++ path.drop k
  if parts = [] then "." else joinComps parts

/-- The map sending a destination's export-relative components to the
`relativePath` string the script records: `os.path.relpath(dst, export_dir)`
with `dst = export_dir / components`. -/
def mkRel (exportDir : List String) (comps : List String) : String :=
  relpath (exportDir ++ comps) exportDir

/-! ### The filesystem model and the script's global state -/

/-- The source filesystem: absolute path components to the file's lines. -/
abbrev FS := List (List String × List String)

/-- Look up a file's lines by path (first match, as `Path.exists` /
`read_text` see one filesystem state). -/
def lookupFS : FS → List String → Option (List String)
  | [], _ => none
  | (q, lines) :: rest, p => if q = p then some lines else lookupFS rest p

/-- Look up a copied file's lines in the export tree by relative path. -/
def assocGet : List (String × List String) → String → Option (List String)
  | [], _ => none
  | (k, v) :: rest, r => if k = r then some v else assocGet rest r

/-- One file placed into the export tree (the `files_ordered` dicts):
`rel`, `is_header` and `orig`; the absolute `dst` is `export_dir/rel`. -/
structure Entry where
  rel : String
  is_header : Bool
  orig : Option (List String)
deriving DecidableEq

/-- The script's process-wide mutable state.  `visited`, `incdirs`,
`defines`, `seen_rel`, `files_ordered` are the globals of the same names;
`copies` is the export tree contents (keyed by export-relative path);
`warnings` collects the diagnostic lines; `queue` and `seen_includes`
belong to the include worklist. -/
structure PState where
  visited : List (List String)
  incdirs : List (List String)
  defines : List String
  seen_rel : List String
  files_ordered : List Entry
  copies : List (String × List String)
  warnings : List String
  queue : List Entry
  seen_includes : List String
deriving DecidableEq

/-- `HDL_EXTS = (".sv", ".svh", ".vh", ".v")`. -/
def HDL_EXTS : List String := [".sv", ".svh", ".vh", ".v"]

/-- `HEADER_EXTS = (".svh", ".vh")`. -/
def HEADER_EXTS : List String := [".svh", ".vh"]

/-- Component-list containment: `d` is an initial run of `p`
(`Path.relative_to(d)` succeeds on resolved absolute paths). -/
def leadsPath : List String → List String → Bool
  | [], _ => true
  | _ :: _, [] => false
  | a :: as, b :: bs => a = b && leadsPath as bs

/-- `is_under_incdir`: the resolved path lies inside one of the declared
include directories (`Path.relative_to` succeeds exactly when the
directory's components lead the path's components). -/
def is_under_incdir (incdirs : List (List String)) (p : List String) : Bool :=
  incdirs.any (fun d => leadsPath d p)

/-- Line 106 of the script: a collected file is a header iff it sits under
a declared include directory or its lowercased extension is `.svh`/`.vh`. -/
def srcIsHeader (incdirs : List (List String)) (orig : List String) : Bool :=
  is_under_incdir incdirs orig || memB HEADER_EXTS (lowerStr (pathSuffix (origName orig)))

/-- The destination subtree `add_src` copies into: `include/` for headers,
`rtl/` for sources. -/
def dstRootOf (incdirs : List (List String)) (orig : List String) : String :=
  if srcIsHeader incdirs orig then "include" else "rtl"

/-- Decimal digits of `n`, most significant first (`f"{i}"`); the fuel
argument `n+1` always suffices since `n/10 < n`. -/
def natDigitsGo : Nat → Nat → List Char
  | 0, _ => []
  | fuel + 1, n =>
    if n < 10 then [Nat.digitChar n]
    else natDigitsGo fuel (n / 10) ++ [Nat.digitChar (n % 10)]

/-- Decimal rendering of a natural number, modelling Python `f"{i}"`. -/
def natStr (n : Nat) : String := String.mk (natDigitsGo (n + 1) n)

/-- The collision-renaming loop of `add_src` (lines 113-120): if the plain
destination exists, try `1_name`, `2_name`, … until a free name is found.
The search is bounded by `taken.length + 1`, which the pigeonhole theorem
`freshDst_not_mem` shows is always enough; the fallback branch is dead. -/
def freshDst (mk : List String → String) (taken : List String) (root name : String) :
    String :=
  let base := mk [root, name]
  if memB taken base then
    match ((List.range (taken.length + 1)).map (fun i => i + 1)).find?
        (fun i => !memB taken (mk [root, natStr i ++ "_" ++ name])) with
    | some i => mk [root, natStr i ++ "_" ++ name]
    | none => base
  else base

/-- `_add_entry(dst, is_header, orig)`: register a `FileEntry` unless its
relative path was already registered, in which case nothing changes and the
result is absent. -/
def addEntry (st : PState) (rel : String) (hdr : Bool) (orig : Option (List String)) :
    PState × Option Entry :=
  if memB st.seen_rel rel then (st, none)
  else
    ({ st with seen_rel := rel :: st.seen_rel,
               files_ordered := st.files_ordered ++ [⟨rel, hdr, orig⟩] }, some ⟨rel, hdr, orig⟩)

/-- `add_src(base, token)`: resolve, skip missing or non-HDL files,
classify, pick a collision-free destination, copy, register. -/
def add_src (fs : FS) (mk : List String → String) (st : PState) (base : List String)
    (token : String) : PState :=
  let orig := joinPath base token
  if (lookupFS fs orig).isNone then st
  else if !memB HDL_EXTS (lowerStr (pathSuffix (origName orig))) then st
  else
    let hdr := srcIsHeader st.incdirs orig
    let root := dstRootOf st.incdirs orig
    let dstRel := freshDst mk (st.copies.map Prod.fst) root (origName orig)
    let content := (lookupFS fs orig).getD []
    let st1 := { st with copies := (dstRel, content) :: st.copies }
    (addEntry st1 dstRel hdr (some orig)).1

/-- `add_incdir(base, incspec)`: strip the `+incdir+` prefix, resolve
against the filelist's directory, append if not already present. -/
def add_incdir (st : PState) (base : List String) (tok : String) : PState :=
  let spec := if strStarts tok "+incdir+" then strDrop tok 8 else tok
  let p := joinPath base spec
  if memB st.incdirs p then st else { st with incdirs := st.incdirs ++ [p] }

/-- Register one macro name in the define set. -/
def addDefineName (st : PState) (name : String) : PState :=
  if memB st.defines name then st else { st with defines := st.defines ++ [name] }

/-- `add_define_token(tok)` for every token except the bare `-D` sentinel:
`+define+A+B=1` chains register each nonempty name before `=`;
`-DNAME[=V]` registers immediately; all other tokens are untouched. -/
def applyDefineTok (st : PState) (t : String) : PState :=
  if strStarts t "+define+" then
    (((splitKeep '+' (strDrop t 8).data).map String.mk).foldl
      (fun s part => let nm := takeUntilEq part; if nm ≠ "" then addDefineName s nm else s) st)
  else if t = "-D" then st
  else if strStarts t "-D" && t.length > 2 then
    (let nm := takeUntilEq (strDrop t 2); if nm ≠ "" then addDefineName st nm else st)
  else st

/-- `t.lower().endswith(HDL_EXTS)`: the bare-source-token test. -/
def hdlExtMatch (t : String) : Bool := HDL_EXTS.any (fun e => strEnds (lowerStr t) e)

/-! ### The filelist parser

`parse_list` is a recursive descent over `-f` chains.  The nested-list
recursion is passed in as `recur`, instantiated by `parseListF` with one
unit of fuel consumed per `parse_list` invocation; `ucount` bounds the
recursion depth and `parse_list_stable` shows the bound is never hit. -/

/-- The token dispatch of one filelist line (the `while i < len(toks)` loop
of `parse_list`).  Every token is first offered to `add_define_token`; the
bare `-D` sentinel consumes the following token as a macro name. -/
def parseLineToks (fs : FS) (mk : List String → String)
    (recur : PState → List String → PState) (base : List String) :
    PState → List String → PState
  | st, [] => st
  | st, t :: rest =>
    if t = "-D" then
      match rest with
      | m :: rest2 =>
        let nm := takeUntilEq m
        parseLineToks fs mk recur base (if nm ≠ "" then addDefineName st nm else st) rest2
      | [] => st
    else
      let st0 := applyDefineTok st t
      if strStarts t "+incdir+" then parseLineToks fs mk recur base (add_incdir st0 base t) rest
      else if t = "-f" || t = "-F" then
        match rest with
        | p :: rest2 => parseLineToks fs mk recur base (recur st0 (joinPath base p)) rest2
        | [] => st0
      else if strStarts t "-f" && t.length > 2 then
        parseLineToks fs mk recur base (recur st0 (joinPath base (strDrop t 2))) rest
      else if strStarts t "+libext" || strStarts t "+librescan" ||
          strStarts t "+notimingchecks" then
        parseLineToks fs mk recur base st0 rest
      else if t = "-v" || t = "-sv" || t = "-y" || t = "-Y" || t = "-timescale" then
        match rest with
        | a :: rest2 =>
          parseLineToks fs mk recur base
            (if t = "-v" || t = "-sv" then add_src fs mk st0 base a else st0) rest2
        | [] => st0
      else if hdlExtMatch t then parseLineToks fs mk recur base (add_src fs mk st0 base t) rest
      else parseLineToks fs mk recur base st0 rest

/-- The line loop of `parse_list`: strip, skip blanks and `#`/`//`
comments, tokenise, dispatch. -/
def parseLinesGo (fs : FS) (mk : List String → String)
    (recur : PState → List String → PState) (base : List String) :
    PState → List String → PState
  | st, [] => st
  | st, raw :: rest =>
    let line := pyStrip raw
    if line = "" || strStarts line "#" || strStarts line "//" then
      parseLinesGo fs mk recur base st rest
    else parseLinesGo fs mk recur base (parseLineToks fs mk recur base st (wsTokens line)) rest

/-- `parse_list(list_path)` with explicit fuel: missing or already-visited
lists return silently; otherwise the list is marked visited and its lines
are processed, nested `-f` lists recursing on one unit less fuel. -/
def parseListF (fs : FS) (mk : List String → String) : Nat → PState → List String → PState
  | 0, st, _ => st
  | n + 1, st, p =>
    if (lookupFS fs p).isNone || memB st.visited p then st
    else
      parseLinesGo fs mk (fun s q => parseListF fs mk n s q) p.dropLast
        { st with visited := p :: st.visited } ((lookupFS fs p).getD [])

/-- The number of filelist paths not yet visited: an upper bound on the
remaining `parse_list` recursion depth. -/
def ucount (fs : FS) (visited : List (List String)) : Nat :=
  ((fs.map Prod.fst).filter (fun q => !memB visited q)).length

/-- `parse_list`, run with enough fuel for any `-f` graph over `fs`. -/
def parse_list (fs : FS) (mk : List String → String) (st : PState) (p : List String) :
    PState :=
  parseListF fs mk (fs.length + 1) st p

/-! ### Include resolution and the worklist driver -/

/-- `resolve_include(include_name, includer_ent)`: try the referencing
file's directory, then each declared include directory; optionally fall
back to a repo-wide basename search that must be unambiguous. -/
def resolve_include (fs : FS) (incdirs : List (List String)) (fallback : String)
    (repoRoot : List String) (name : String) (includer : Entry) : Option (List String) :=
  let roots := (match includer.orig with
    | some o => [o.dropLast]
    | none => []) ++ incdirs
  match roots.find? (fun r => (lookupFS fs (joinPath r name)).isSome) with
  | some r => some (joinPath r name)
  | none =>
    if fallback = "project" then
      match (fs.map Prod.fst).filter
          (fun q => q.getLastD "" = baseName name && leadsPath repoRoot q) with
      | [m] => some m
      | _ => none
    else none

/-- `copy_include(include_name, src_abs)`: copy under `include/` preserving
the include name's subpath, unless the destination already exists; then
register the entry. -/
def copy_include (fs : FS) (mk : List String → String) (st : PState) (name : String)
    (src : List String) : PState × Option Entry :=
  let dstRel := mk ("include" :: strComps name)
  let st1 :=
    if (assocGet st.copies dstRel).isSome then st
    else { st with copies := (dstRel, (lookupFS fs src).getD []) :: st.copies }
  addEntry st1 dstRel true (some src)

/-- Strip every leading `./` from an include name (the worklist's
normalisation). -/
def stripDotSlash : List Char → List Char
  | '.' :: '/' :: rest => stripDotSlash rest
  | cs => cs

/-- The normalised include name used as the `seen_includes` key. -/
def normName (s : String) : String := String.mk (stripDotSlash s.data)

/-- The warning line printed for an unresolved include. -/
def warnLine (name rel : String) : String :=
  "WARNING: Unable to resolve include \x27" ++ name ++ "\x27 referenced by " ++ rel

/-- The worklist body for one yielded include name: skip names already
resolved, warn on resolution failure, otherwise copy, record the name and
enqueue a freshly registered entry. -/
def processName (fs : FS) (mk : List String → String) (fallback : String)
    (repoRoot : List String) (st : PState) (e : Entry) (raw : String) : PState :=
  let name := normName raw
  if memB st.seen_includes name then st
  else
    match resolve_include fs st.incdirs fallback repoRoot name e with
    | none => { st with warnings := st.warnings ++ [warnLine name e.rel] }
    | some src =>
      let r := copy_include fs mk st name src
      let st2 := { r.1 with seen_includes := name :: r.1.seen_includes }
      match r.2 with
      | some ne => { st2 with queue := st2.queue ++ [ne] }
      | none => st2

/-- Process one queue entry: scan its copied destination file for active
includes and feed each through `processName`. -/
def processEntry (fs : FS) (mk : List String → String) (fallback : String)
    (repoRoot : List String) (st : PState) (e : Entry) : PState :=
  let lines := (assocGet st.copies e.rel).getD []
  (scan_active_includes st.defines lines).foldl (processName fs mk fallback repoRoot · e ·) st

/-- The `while queue:` loop with explicit fuel, one unit per popped entry. -/
def driveF (fs : FS) (mk : List String → String) (fallback : String)
    (repoRoot : List String) : Nat → PState → PState
  | 0, st => st
  | n + 1, st =>
    match st.queue with
    | [] => st
    | e :: rest => driveF fs mk fallback repoRoot n
        (processEntry fs mk fallback repoRoot { st with queue := rest } e)

/-- All include names that syntactically occur in a list of lines,
whatever the macro set: a superset of any scan's yields. -/
def includeNamesOf (lines : List String) : List String :=
  lines.filterMap (fun l => matchIncludeChars (pyStripChars l.data))

/-- The finite universe of normalised include names that can ever be
yielded while driving over `fs` with initial export contents `c0`. -/
def candNames (fs : FS) (c0 : List (String × List String)) : List String :=
  (((fs.map Prod.snd) ++ (c0.map Prod.snd)).flatMap includeNamesOf).map normName

/-- The driver's termination measure: unseen candidate names plus queue
length; it strictly decreases at every popped entry. -/
def driveMeasure (fs : FS) (c0 : List (String × List String)) (st : PState) : Nat :=
  ((candNames fs c0).filter (fun n => !memB st.seen_includes n)).length + st.queue.length

/-! ### Manifest emission and the whole run -/

/-- Environment configuration of one run (§6 of the spec). -/
structure Cfg where
  toplevel : String
  coreFileBase : Option String
  fallback : String
  repoRoot : List String
deriving DecidableEq

/-- The emission order of the manifest's file entries: headers first, then
sources, each bucket in discovery order (lines 281-282 and 299). -/
def manifestOrder (entries : List Entry) : List Entry :=
  entries.filter (fun e => e.is_header) ++ entries.filter (fun e => !e.is_header)

/-- One `files:` line of the manifest (the `emit` closure). -/
def emitLine (e : Entry) : String :=
  "      - " ++ e.rel ++ ": \x7bfile_type: systemVerilogSource" ++
    (if e.is_header then ", is_include_file: true" else "") ++ "\x7d\n"

/-- The complete text of the emitted `.core` manifest (lines 284-306). -/
def manifestText (core_name core_ver toplevel : String) (entries : List Entry) : String :=
  "CAPI=2:\n\n" ++
    "name: \x22" ++ core_name ++ ":" ++ core_ver ++ "\x22\n" ++
    "description: \x22Self-contained Ibex snapshot (from tool filelist; " ++
    "preproc-aware includes; no generators)\x22\n\n" ++
    "filesets:\n" ++ "  files_all:\n" ++ "    files:\n" ++
    String.join ((manifestOrder entries).map emitLine) ++
    "\n" ++ "targets:\n" ++ "  default:\n" ++ "    filesets: [files_all]\n" ++
    "    toplevel: " ++ toplevel ++ "\n"

/-- `core_name.split(":")[-1]`: the default on-disk basename. -/
def lastColonSeg (s : String) : String :=
  (((splitKeep ':' s.data).map String.mk).getLastD s)

/-- The empty run state over the given initial export-directory contents. -/
def initState (c0 : List (String × List String)) : PState :=
  ⟨[], [], [], [], [], c0, [], [], []⟩

/-- Phases 1 and 2 of the script, parameterised by the `dst ↦ rel` map
`mk` (which the script realises as `os.path.relpath(·, export_dir)`):
parse the top-level filelist, snapshot `files_ordered` into the worklist
queue, and drive the queue to exhaustion. -/
def runCore (fs : FS) (cfg : Cfg) (c0 : List (String × List String))
    (mk : List String → String) (rootList : List String) : PState :=
  let stP := parse_list fs mk (initState c0) rootList
  let st0 := { stP with queue := stP.files_ordered }
  driveF fs mk cfg.fallback cfg.repoRoot (driveMeasure fs c0 st0) st0

/-- The result of a complete run. -/
structure RunOut where
  final : PState
  manifest : String
  message : String
deriving DecidableEq

/-- The whole tool run: parse, drive, emit, announce.  `exportDir` enters
only through the `relativePath` map and the announcement message. -/
def runTool (fs : FS) (cfg : Cfg) (c0 : List (String × List String))
    (exportDir : List String) (rootList : List String) (core_name core_ver : String) :
    RunOut :=
  let st := runCore fs cfg c0 (mkRel exportDir) rootList
  let file_base := cfg.coreFileBase.getD (lastColonSeg core_name)
  { final := st,
    manifest := manifestText core_name core_ver cfg.toplevel st.files_ordered,
    message := "Wrote monocore to /" ++ joinComps (exportDir ++ [file_base ++ ".core"]) }

/-- Argument handling: any argument count other than four (plus the
program name) exits with status 2 before any side effect; otherwise the
run executes and the process exits 0. -/
def mainTool (fs : FS) (cfg : Cfg) (c0 : List (String × List String))
    (argv : List String) : Nat × Option RunOut :=
  match argv with
  | [_, fl, ed, cn, cv] => (0, some (runTool fs cfg c0 (strComps ed) (strComps fl) cn cv))
  | _ => (2, none)

/-! ### Claim C2: header classification -/

/-- Claim C2: a collected file is a header iff its resolved path lies
inside some declared include directory (component containment, not string
prefix) or its lowercase extension is `.svh`/`.vh`; a `.sv` file under an
include directory therefore goes to the `include/` subtree, not `rtl/`.
The last conjunct separates containment from string prefix: `/a/b` is a
string prefix of `/a/bc/x.sv` but does not contain it. -/
theorem C2_header_classification (incdirs : List (List String)) (orig : List String)
    (hsv : pathSuffix (origName orig) = ".sv") (hin : is_under_incdir incdirs orig = true) :
    (∀ (ds : List (List String)) (p : List String),
      (srcIsHeader ds p = true ↔
        (∃ d ∈ ds, leadsPath d p = true) ∨ lowerStr (pathSuffix (origName p)) ∈ HEADER_EXTS)) ∧
      (dstRootOf incdirs orig = "include" ∧ lowerStr (pathSuffix (origName orig)) ∉ HEADER_EXTS) ∧
      (is_under_incdir [["a", "b"]] ["a", "bc", "x.sv"] = false ∧
        strStarts (joinComps ["a", "bc", "x.sv"]) (joinComps ["a", "b"]) = true) := by
  refine ⟨?_, ⟨?_, ?_⟩, by decide, by decide⟩
  · intro ds p
    simp [srcIsHeader, is_under_incdir, List.any_eq_true, memB_iff]
  · have : srcIsHeader incdirs orig = true := by
      simp [srcIsHeader, hin]
    simp [dstRootOf, this]
  · rw [hsv]; decide

/-- Witness for C2: `proj/inc/x.sv` under the declared include directory
`proj/inc`. -/
theorem C2_witness :
    pathSuffix (origName ["proj", "inc", "x.sv"]) = ".sv" ∧
      is_under_incdir [["proj", "inc"]] ["proj", "inc", "x.sv"] = true ∧
      dstRootOf [["proj", "inc"]] ["proj", "inc", "x.sv"] = "include" :=
  ⟨by decide, by decide,
    (C2_header_classification [["proj", "inc"]] ["proj", "inc", "x.sv"]
      (by decide) (by decide)).2.1.1⟩

/-! ### Claim C5: the project-wide fallback accepts only a unique match -/

/-- Claim C5: with `INCLUDE_FALLBACK=project`, when the include name is
found neither next to the referencing file nor in any declared include
directory, resolution succeeds exactly when the repo-wide basename search
has a unique match; zero or several matches resolve to `none`. -/
theorem C5_unique_fallback (fs : FS) (incdirs : List (List String))
    (repoRoot : List String) (name : String) (e : Entry)
    (hdirect : ∀ r ∈ ((match e.orig with
      | some o => [o.dropLast]
      | none => []) ++ incdirs), (lookupFS fs (joinPath r name)).isSome = false) :
    (∀ p, resolve_include fs incdirs "project" repoRoot name e = some p ↔
        (fs.map Prod.fst).filter
          (fun q => q.getLastD "" = baseName name && leadsPath repoRoot q) = [p]) ∧
      (((fs.map Prod.fst).filter
          (fun q => q.getLastD "" = baseName name && leadsPath repoRoot q)).length ≠ 1 →
        resolve_include fs incdirs "project" repoRoot name e = none) := by
  have hfind : ((match e.orig with
      | some o => [o.dropLast]
      | none => []) ++ incdirs).find?
        (fun r => (lookupFS fs (joinPath r name)).isSome) = none := by
    rw [List.find?_eq_none]
    intro r hr
    simp [hdirect r hr]
  constructor
  · intro p
    rw [resolve_include, hfind]
    cases hM : (fs.map Prod.fst).filter
        (fun q => q.getLastD "" = baseName name && leadsPath repoRoot q) with
    | nil => simp
    | cons m rest =>
      cases rest with
      | nil => simp [eq_comm]
      | cons m2 rest2 => simp
  · intro hlen
    rw [resolve_include, hfind]
    cases hM : (fs.map Prod.fst).filter
        (fun q => q.getLastD "" = baseName name && leadsPath repoRoot q) with
    | nil => simp
    | cons m rest =>
      cases rest with
      | nil => rw [hM] at hlen; simp at hlen
      | cons m2 rest2 => simp

/-- Witness for C5: two files named `x.svh` under the search root; the
fallback refuses to choose. -/
theorem C5_witness :
    resolve_include [(["r", "a", "x.svh"], ["aa"]), (["r", "b", "x.svh"], ["bb"])]
        [] "project" ["r"] "x.svh" ⟨"rtl/c.sv", false, some ["r", "f", "c.sv"]⟩ = none :=
  (C5_unique_fallback [(["r", "a", "x.svh"], ["aa"]), (["r", "b", "x.svh"], ["bb"])]
      [] ["r"] "x.svh" ⟨"rtl/c.sv", false, some ["r", "f", "c.sv"]⟩
      (by decide)).2 (by decide)

/-! ### Claim C6: headers precede sources in the manifest -/

theorem append_hdr_before (L R : List Entry)
    (hLhdr : ∀ e ∈ L, e.is_header = true) (hRhdr : ∀ e ∈ R, e.is_header = false)
    (i j : Nat) (hi : i < (L ++ R).length) (hj : j < (L ++ R).length)
    (hhi : (L ++ R)[i].is_header = true) (hhj : (L ++ R)[j].is_header = false) :
    i < j := by
  have hiL : i < L.length := by
    by_contra hcon
    push_neg at hcon
    have hilt : i - L.length < R.length := by
      simp only [List.length_append] at hi
      omega
    rw [List.getElem_append_right hcon] at hhi
    rw [hRhdr _ (List.getElem_mem hilt)] at hhi
    exact absurd hhi (by simp)
  have hjL : L.length ≤ j := by
    by_contra hcon
    push_neg at hcon
    rw [List.getElem_append_left hcon] at hhj
    rw [hLhdr _ (List.getElem_mem hcon)] at hhj
    exact absurd hhj (by simp)
  omega

/-- The spec's end-to-end scenario filesystem: a filelist declaring an
include directory, a source, and a nested filelist; the source includes
`types.svh` which lives in the include directory. -/
def demoFS : FS := [
  (["proj", "files.f"], ["+incdir+./inc", "core.sv", "-f sub.f"]),
  (["proj", "sub.f"], ["+define+WIDTH", "dep.sv"]),
  (["proj", "core.sv"], ["`include \x22types.svh\x22"]),
  (["proj", "dep.sv"], ["module dep;", "endmodule"]),
  (["proj", "inc", "types.svh"], ["typedef logic t;"])]

/-- Default configuration: `TOPLEVEL=ibex_wrapper`, no basename override,
fallback disabled. -/
def demoCfg : Cfg := ⟨"ibex_wrapper", none, "disabled", []⟩

/-- The end-to-end scenario run into the empty export dir `/exp`. -/
def demoRun : RunOut :=
  runTool demoFS demoCfg [] ["exp"] ["proj", "files.f"] "lowrisc:ibex:top" "0.1"

set_option maxRecDepth 40000

/-- Claim C6: manifest emission lists every header entry strictly before
every source entry, each partition keeping its discovery order, and in the
end-to-end scenario `types.svh` (marked include-only) is listed before
`core.sv` and `dep.sv`. -/
theorem C6_headers_before_sources (entries : List Entry) :
    (∀ (i j : Nat) (hi : i < (manifestOrder entries).length)
        (hj : j < (manifestOrder entries).length),
      (manifestOrder entries)[i].is_header = true →
      (manifestOrder entries)[j].is_header = false → i < j) ∧
      (manifestOrder entries).filter (fun e => e.is_header) =
        entries.filter (fun e => e.is_header) ∧
      (manifestOrder entries).filter (fun e => !e.is_header) =
        entries.filter (fun e => !e.is_header) ∧
      (manifestOrder demoRun.final.files_ordered).map Entry.rel =
        ["include/types.svh", "rtl/core.sv", "rtl/dep.sv"] ∧
      demoRun.manifest =
        "CAPI=2:\n\nname: \x22lowrisc:ibex:top:0.1\x22\ndescription: " ++
        "\x22Self-contained Ibex snapshot (from tool filelist; preproc-aware " ++
        "includes; no generators)\x22\n\nfilesets:\n  files_all:\n    files:\n" ++
        "      - include/types.svh: \x7bfile_type: systemVerilogSource, " ++
        "is_include_file: true\x7d\n" ++
        "      - rtl/core.sv: \x7bfile_type: systemVerilogSource\x7d\n" ++
        "      - rtl/dep.sv: \x7bfile_type: systemVerilogSource\x7d\n" ++
        "\ntargets:\n  default:\n    filesets: [files_all]\n    toplevel: ibex_wrapper\n" := by
  have hLhdr : ∀ e ∈ entries.filter (fun e => e.is_header), e.is_header = true :=
    fun e he => (List.mem_filter.mp he).2
  have hRhdr : ∀ e ∈ entries.filter (fun e => !e.is_header), e.is_header = false :=
    fun e he => by simpa using (List.mem_filter.mp he).2
  refine ⟨fun i j hi hj hhi hhj =>
      append_hdr_before _ _ hLhdr hRhdr i j hi hj hhi hhj, ?_, ?_, by decide, by decide⟩
  · show (entries.filter (fun e => e.is_header) ++
        entries.filter (fun e => !e.is_header)).filter (fun e => e.is_header) =
      entries.filter (fun e => e.is_header)
    have h1 : (entries.filter (fun e => e.is_header)).filter (fun e => e.is_header) =
        entries.filter (fun e => e.is_header) := List.filter_eq_self.mpr hLhdr
    have h2 : (entries.filter (fun e => !e.is_header)).filter (fun e => e.is_header) =
        [] := by
      rw [List.filter_eq_nil_iff]
      intro e he
      simp [hRhdr e he]
    rw [List.filter_append, h1, h2, List.append_nil]
  · show (entries.filter (fun e => e.is_header) ++
        entries.filter (fun e => !e.is_header)).filter (fun e => !e.is_header) =
      entries.filter (fun e => !e.is_header)
    have h1 : (entries.filter (fun e => e.is_header)).filter (fun e => !e.is_header) =
        [] := by
      rw [List.filter_eq_nil_iff]
      intro e he
      simp [hLhdr e he]
    have h2 : (entries.filter (fun e => !e.is_header)).filter (fun e => !e.is_header) =
        entries.filter (fun e => !e.is_header) :=
      List.filter_eq_self.mpr (fun e he => by simp [hRhdr e he])
    rw [List.filter_append, h1, h2, List.nil_append]

/-! ### Claim C4: re-running into the same export directory

The pieces: decimal rendering is injective, so the collision-rename
candidates are pairwise distinct and the bounded search always finds a
free name (`freshDst_not_mem`); prepending a fresh key never disturbs an
existing key's content; `copy_include` refuses to overwrite. -/

/-- Decode a decimal digit string (left inverse of `natDigitsGo`). -/
def decDigits (cs : List Char) : Nat :=
  cs.foldl (fun a c => a * 10 + (c.toNat - 48)) 0

theorem digitChar_toNat (d : Nat) (h : d < 10) : (Nat.digitChar d).toNat = 48 + d := by
  interval_cases d <;> rfl

theorem decDigits_append (cs : List Char) (c : Char) :
    decDigits (cs ++ [c]) = decDigits cs * 10 + (c.toNat - 48) := by
  simp [decDigits, List.foldl_append]

theorem natDigitsGo_stable (f1 : Nat) : ∀ (f2 n : Nat), n < f1 → n < f2 →
    natDigitsGo f1 n = natDigitsGo f2 n := by
  induction f1 with
  | zero => intro f2 n h1; omega
  | succ f ih =>
    intro f2 n h1 h2
    match f2, h2 with
    | m + 1, h2 =>
      by_cases hn : n < 10
      · simp [natDigitsGo, hn]
      · have hdiv : n / 10 < n := Nat.div_lt_self (by omega) (by omega)
        simp only [natDigitsGo, hn, if_false]
        rw [ih m (n / 10) (by omega) (by omega)]

theorem decDigits_natDigitsGo (n : Nat) : decDigits (natDigitsGo (n + 1) n) = n := by
  induction n using Nat.strong_induction_on with
  | _ n ih =>
    by_cases hn : n < 10
    · simp [natDigitsGo, hn, decDigits, digitChar_toNat n hn]
    · have hdiv : n / 10 < n := Nat.div_lt_self (by omega) (by omega)
      have hmod : n % 10 < 10 := Nat.mod_lt n (by omega)
      simp only [natDigitsGo, hn, if_false]
      rw [natDigitsGo_stable n (n / 10 + 1) (n / 10) hdiv (by omega)]
      rw [decDigits_append, ih (n / 10) hdiv, digitChar_toNat _ hmod]
      omega

theorem natStr_inj (m n : Nat) (h : natStr m = natStr n) : m = n := by
  have hdata : natDigitsGo (m + 1) m = natDigitsGo (n + 1) n := by
    have := congrArg String.data h
    simpa [natStr] using this
  have := congrArg decDigits hdata
  rwa [decDigits_natDigitsGo, decDigits_natDigitsGo] at this

/-- `relpath(export_dir ++ xs, export_dir)` does not depend on the export
directory: it is the joined relative components (or `.` when empty). -/
def nfRel (xs : List String) : String := if xs = [] then "." else joinComps xs

theorem cplLen_append_self (ed xs : List String) : cplLen (ed ++ xs) ed = ed.length := by
  induction ed with
  | nil =>
    cases xs with
    | nil => rfl
    | cons a rest => rfl
  | cons e es ih =>
    simp [cplLen, ih]
    omega

theorem mkRel_eq_nfRel (ed xs : List String) : mkRel ed xs = nfRel xs := by
  unfold mkRel relpath nfRel
  rw [cplLen_append_self]
  simp [List.drop_left]

theorem string_append_right_inj (u a b : String) (h : a ++ u = b ++ u) : a = b := by
  apply String.ext
  have := congrArg String.data h
  simp only [show ∀ (x y : String), (x ++ y).data = x.data ++ y.data from fun x y => rfl] at this
  exact List.append_cancel_right this

theorem string_append_left_inj (u a b : String) (h : u ++ a = u ++ b) : a = b := by
  apply String.ext
  have := congrArg String.data h
  simp only [show ∀ (x y : String), (x ++ y).data = x.data ++ y.data from fun x y => rfl] at this
  exact List.append_cancel_left this

/-- The collision-rename candidates `i_name` are pairwise distinct. -/
theorem renameCand_inj (ed : List String) (root name : String) :
    Function.Injective (fun i : Nat => mkRel ed [root, natStr i ++ "_" ++ name]) := by
  intro i j h
  simp only [mkRel_eq_nfRel] at h
  have h2 : root ++ "/" ++ (natStr i ++ "_" ++ name) =
      root ++ "/" ++ (natStr j ++ "_" ++ name) := h
  have h3 := string_append_left_inj _ _ _ h2
  have h4 := string_append_right_inj name _ _ h3
  exact natStr_inj i j (string_append_right_inj "_" _ _ h4)

/-- The bounded collision search always finds a destination that does not
already exist: the script's `while True` rename loop terminates with a
fresh name, so no existing file is ever overwritten. -/
theorem freshDst_not_mem (ed : List String) (taken : List String) (root name : String) :
    memB taken (freshDst (mkRel ed) taken root name) = false := by
  by_cases hbase : memB taken (mkRel ed [root, name])
  · rw [freshDst]
    simp only [hbase, if_true]
    cases hfind : ((List.range (taken.length + 1)).map (fun i => i + 1)).find?
        (fun i => !memB taken (mkRel ed [root, natStr i ++ "_" ++ name])) with
    | some i =>
      have := List.find?_some hfind
      simpa using this
    | none =>
      exfalso
      rw [List.find?_eq_none] at hfind
      have hmem : ∀ i ∈ (List.range (taken.length + 1)).map (fun i => i + 1),
          mkRel ed [root, natStr i ++ "_" ++ name] ∈ taken := by
        intro i hi
        have h5 := hfind i hi
        have h6 : memB taken (mkRel ed [root, natStr i ++ "_" ++ name]) = true := by
          revert h5
          cases memB taken (mkRel ed [root, natStr i ++ "_" ++ name]) <;> simp
        exact (memB_iff _ _).mp h6
      have hsub : ((List.range (taken.length + 1)).map (fun i => i + 1)).map
          (fun i => mkRel ed [root, natStr i ++ "_" ++ name]) ⊆ taken := by
        intro x hx
        rcases List.mem_map.mp hx with ⟨i, hi, rfl⟩
        exact hmem i hi
      have hnodup : (((List.range (taken.length + 1)).map (fun i => i + 1)).map
          (fun i => mkRel ed [root, natStr i ++ "_" ++ name])).Nodup :=
        (((List.nodup_range (taken.length + 1)).map (fun a b hab => by omega)).map
          (renameCand_inj ed root name))
      have hlen := (List.subperm_of_subset hnodup hsub).length_le
      simp at hlen
  · rw [freshDst]
    simp only [hbase, if_false]
    simpa using hbase

/-- The C8 invariant: `relativePath` is unique across the registered
entries, and `seen_rel` holds exactly the registered relative paths. -/
def INVr (st : PState) : Prop :=
  (st.files_ordered.map Entry.rel).Nodup ∧
    (∀ r, memB st.seen_rel r = true ↔ r ∈ st.files_ordered.map Entry.rel)

/-- Entries are append-only: the old entry list is an unchanged prefix of
the new one. -/
def entriesGrow (st st' : PState) : Prop :=
  ∃ t, st'.files_ordered = st.files_ordered ++ t

/-- Everything that is monotone along the run: existing copies keep their
content, `visited` and `seen_includes` only grow, every copy's content
comes from the old state or from a source file, entries are append-only,
and the `relativePath`-uniqueness invariant is preserved. -/
def Grows (fs : FS) (st st' : PState) : Prop :=
  (∀ k v, assocGet st.copies k = some v → assocGet st'.copies k = some v) ∧
    (∀ p, p ∈ st.visited → p ∈ st'.visited) ∧
    (∀ n, n ∈ st.seen_includes → n ∈ st'.seen_includes) ∧
    (∀ kv, kv ∈ st'.copies → kv ∈ st.copies ∨ kv.2 ∈ fs.map Prod.snd ∨ kv.2 = []) ∧
    entriesGrow st st' ∧
    (INVr st → INVr st')

theorem Grows_refl (fs : FS) (st : PState) : Grows fs st st :=
  ⟨fun _ _ h => h, fun _ h => h, fun _ h => h, fun _ h => Or.inl h,
    ⟨[], (List.append_nil _).symm⟩, id⟩

theorem Grows_trans (fs : FS) (st1 st2 st3 : PState) (h1 : Grows fs st1 st2)
    (h2 : Grows fs st2 st3) : Grows fs st1 st3 := by
  obtain ⟨a1, b1, c1, d1, ⟨t1, e1⟩, f1⟩ := h1
  obtain ⟨a2, b2, c2, d2, ⟨t2, e2⟩, f2⟩ := h2
  refine ⟨fun k v h => a2 k v (a1 k v h), fun p h => b2 p (b1 p h),
    fun n h => c2 n (c1 n h), ?_, ⟨t1 ++ t2, by rw [e2, e1, List.append_assoc]⟩,
    fun h => f2 (f1 h)⟩
  intro kv h
  rcases d2 kv h with h' | h'
  · exact d1 kv h'
  · exact Or.inr h'

theorem assocGet_mem_keys (copies : List (String × List String)) (k : String)
    (v : List String) (h : assocGet copies k = some v) :
    memB (copies.map Prod.fst) k = true := by
  induction copies with
  | nil => simp [assocGet] at h
  | cons kv rest ih =>
    by_cases he : kv.1 = k
    · simp [memB, he]
    · rw [show kv = (kv.1, kv.2) from rfl, assocGet, if_neg he] at h
      simp [memB, he, ih h]

theorem assocGet_cons_fresh (copies : List (String × List String)) (k' : String)
    (v' : List String) (hf : memB (copies.map Prod.fst) k' = false) (k : String)
    (v : List String) (h : assocGet copies k = some v) :
    assocGet ((k', v') :: copies) k = some v := by
  have hne : k' ≠ k := by
    intro he
    rw [he, assocGet_mem_keys copies k v h] at hf
    exact absurd hf (by simp)
  rw [assocGet, if_neg hne]
  exact h

theorem assocGet_mem (copies : List (String × List String)) (k : String)
    (v : List String) (h : assocGet copies k = some v) : (k, v) ∈ copies := by
  induction copies with
  | nil => simp [assocGet] at h
  | cons kv rest ih =>
    by_cases he : kv.1 = k
    · rw [show kv = (kv.1, kv.2) from rfl, assocGet, if_pos he] at h
      rw [show kv = (kv.1, kv.2) from rfl, he]
      rw [Option.some_inj] at h
      rw [h]
      exact List.mem_cons_self _ _
    · rw [show kv = (kv.1, kv.2) from rfl, assocGet, if_neg he] at h
      exact List.mem_cons_of_mem _ (ih h)

/-- `_add_entry` on an already-present relative path is a no-op returning
an absent result. -/
theorem addEntry_dup (st : PState) (rel : String) (hdr : Bool)
    (orig : Option (List String)) (h : memB st.seen_rel rel = true) :
    addEntry st rel hdr orig = (st, none) := by
  rw [addEntry, if_pos h]

theorem addEntry_Grows (fs : FS) (st : PState) (rel : String) (hdr : Bool)
    (orig : Option (List String)) : Grows fs st (addEntry st rel hdr orig).1 := by
  rw [addEntry]
  by_cases h : memB st.seen_rel rel = true
  · rw [if_pos h]
    exact Grows_refl fs st
  · rw [if_neg h]
    refine ⟨fun _ _ hh => hh, fun _ hh => hh, fun _ hh => hh, fun _ hh => Or.inl hh,
      ⟨[⟨rel, hdr, orig⟩], rfl⟩, ?_⟩
    intro ⟨hnd, hiff⟩
    constructor
    · simp only [List.map_append, List.map_cons, List.map_nil]
      rw [List.nodup_append]
      refine ⟨hnd, List.nodup_singleton _, ?_⟩
      intro x hx hxa
      simp only [List.mem_singleton] at hxa
      subst hxa
      exact h ((hiff x).mpr hx)
    · intro r
      simp only [List.map_append, List.map_cons, List.map_nil, List.mem_append,
        List.mem_singleton]
      constructor
      · intro hm
        rw [memB] at hm
        by_cases hre : rel = r
        · exact Or.inr hre.symm
        · rw [if_neg hre] at hm
          exact Or.inl ((hiff r).mp hm)
      · intro hm
        rw [memB]
        by_cases hre : rel = r
        · rw [if_pos hre]
        · rw [if_neg hre]
          rcases hm with hm | hm
          · exact (hiff r).mpr hm
          · exact absurd hm.symm hre

theorem lookupFS_mem_snd (fs : FS) (p : List String) (v : List String)
    (h : lookupFS fs p = some v) : v ∈ fs.map Prod.snd := by
  induction fs with
  | nil => simp [lookupFS] at h
  | cons kv rest ih =>
    by_cases he : kv.1 = p
    · rw [show kv = (kv.1, kv.2) from rfl, lookupFS, if_pos he] at h
      rw [Option.some_inj] at h
      simp [← h]
    · rw [show kv = (kv.1, kv.2) from rfl, lookupFS, if_neg he] at h
      simp [ih h]

theorem lookupFS_isSome_of_mem (fs : FS) (p : List String)
    (h : p ∈ fs.map Prod.fst) : (lookupFS fs p).isSome = true := by
  induction fs with
  | nil => simp at h
  | cons kv rest ih =>
    by_cases he : kv.1 = p
    · rw [show kv = (kv.1, kv.2) from rfl, lookupFS, if_pos he]
      rfl
    · rw [show kv = (kv.1, kv.2) from rfl, lookupFS, if_neg he]
      apply ih
      simp only [List.map_cons, List.mem_cons] at h
      rcases h with h | h
      · exact absurd h.symm he
      · exact h

theorem assocGet_none_keys (copies : List (String × List String)) (k : String)
    (h : assocGet copies k = none) : memB (copies.map Prod.fst) k = false := by
  induction copies with
  | nil => rfl
  | cons kv rest ih =>
    by_cases he : kv.1 = k
    · rw [show kv = (kv.1, kv.2) from rfl, assocGet, if_pos he] at h
      exact absurd h (by simp)
    · rw [show kv = (kv.1, kv.2) from rfl, assocGet, if_neg he] at h
      simp [memB, he, ih h]

/-- `resolve_include` only returns paths of existing files. -/
theorem resolve_include_isSome (fs : FS) (incdirs : List (List String))
    (fallback : String) (repoRoot : List String) (name : String) (e : Entry)
    (p : List String) (h : resolve_include fs incdirs fallback repoRoot name e = some p) :
    (lookupFS fs p).isSome = true := by
  rw [resolve_include] at h
  cases hfind : ((match e.orig with
      | some o => [o.dropLast]
      | none => []) ++ incdirs).find? (fun r => (lookupFS fs (joinPath r name)).isSome) with
  | some r =>
    rw [hfind] at h
    rw [Option.some_inj] at h
    have := List.find?_some hfind
    rw [← h]
    exact this
  | none =>
    rw [hfind] at h
    by_cases hfb : fallback = "project"
    · rw [if_pos hfb] at h
      cases hM : (fs.map Prod.fst).filter
          (fun q => q.getLastD "" = baseName name && leadsPath repoRoot q) with
      | nil => rw [hM] at h; exact absurd h (by simp)
      | cons m rest =>
        cases rest with
        | nil =>
          rw [hM] at h
          rw [Option.some_inj] at h
          have hm : m ∈ (fs.map Prod.fst).filter
              (fun q => q.getLastD "" = baseName name && leadsPath repoRoot q) := by
            rw [hM]; exact List.mem_cons_self _ _
          rw [← h]
          exact lookupFS_isSome_of_mem fs m (List.mem_of_mem_filter hm)
        | cons m2 rest2 => rw [hM] at h; exact absurd h (by simp)
    · rw [if_neg hfb] at h
      exact absurd h (by simp)

/-- Operations that touch only `defines` or `incdirs` satisfy `Grows`. -/
theorem addDefineName_Grows (fs : FS) (st : PState) (name : String) :
    Grows fs st (addDefineName st name) := by
  rw [addDefineName]
  by_cases h : memB st.defines name = true
  · rw [if_pos h]; exact Grows_refl fs st
  · rw [if_neg h]
    exact ⟨fun _ _ hh => hh, fun _ hh => hh, fun _ hh => hh, fun _ hh => Or.inl hh,
      ⟨[], (List.append_nil _).symm⟩, id⟩

theorem applyDefineTok_Grows (fs : FS) (st : PState) (t : String) :
    Grows fs st (applyDefineTok st t) := by
  rw [applyDefineTok]
  by_cases h1 : strStarts t "+define+" = true
  · rw [if_pos h1]
    generalize (splitKeep '+' (strDrop t 8).data).map String.mk = parts
    induction parts generalizing st with
    | nil => exact Grows_refl fs st
    | cons part rest ih =>
      rw [List.foldl_cons]
      refine Grows_trans fs st _ _ ?_ (ih _)
      by_cases h2 : takeUntilEq part ≠ ""
      · rw [if_pos h2]
        exact addDefineName_Grows fs st _
      · rw [if_neg h2]
        exact Grows_refl fs st
  · rw [if_neg h1]
    by_cases h2 : t = "-D"
    · rw [if_pos h2]; exact Grows_refl fs st
    · rw [if_neg h2]
      by_cases h3 : (strStarts t "-D" && decide (t.length > 2)) = true
      · rw [if_pos h3]
        by_cases h4 : takeUntilEq (strDrop t 2) ≠ ""
        · rw [if_pos h4]
          exact addDefineName_Grows fs st _
        · rw [if_neg h4]
          exact Grows_refl fs st
      · rw [if_neg h3]; exact Grows_refl fs st

theorem add_incdir_Grows (fs : FS) (st : PState) (base : List String) (tok : String) :
    Grows fs st (add_incdir st base tok) := by
  rw [add_incdir]
  by_cases h : memB st.incdirs (joinPath base
      (if strStarts tok "+incdir+" then strDrop tok 8 else tok)) = true
  · simp only [h, if_true]
    exact Grows_refl fs st
  · simp only [h, if_false]
    exact ⟨fun _ _ hh => hh, fun _ hh => hh, fun _ hh => hh, fun _ hh => Or.inl hh,
      ⟨[], (List.append_nil _).symm⟩, id⟩

theorem add_src_Grows (fs : FS) (ed : List String) (st : PState) (base : List String)
    (token : String) : Grows fs st (add_src fs (mkRel ed) st base token) := by
  simp only [add_src]
  by_cases h1 : (lookupFS fs (joinPath base token)).isNone = true
  · rw [if_pos h1]
    exact Grows_refl fs st
  · rw [if_neg h1]
    by_cases h2 : (!memB HDL_EXTS (lowerStr (pathSuffix (origName (joinPath base token))))) =
        true
    · rw [if_pos h2]
      exact Grows_refl fs st
    · rw [if_neg h2]
      have hsome : (lookupFS fs (joinPath base token)).isSome = true := by
        cases hl : lookupFS fs (joinPath base token) with
        | none => rw [hl] at h1; exact absurd rfl h1
        | some v => rfl
      obtain ⟨v, hv⟩ := Option.isSome_iff_exists.mp hsome
      refine Grows_trans fs st _ _ ?_ (addEntry_Grows fs _ _ _ _)
      refine ⟨?_, fun _ hh => hh, fun _ hh => hh, ?_, ⟨[], (List.append_nil _).symm⟩,
        fun hh => hh⟩
      · intro k v2 hk
        exact assocGet_cons_fresh st.copies _ _ (freshDst_not_mem ed _ _ _) k v2 hk
      · intro kv hkv
        simp only [List.mem_cons] at hkv
        rcases hkv with hkv | hkv
        · right; left
          rw [hkv]
          show ((lookupFS fs (joinPath base token)).getD []) ∈ fs.map Prod.snd
          rw [hv]
          exact lookupFS_mem_snd fs _ v hv
        · exact Or.inl hkv

theorem copy_include_Grows (fs : FS) (mk : List String → String) (st : PState)
    (name : String) (src : List String) :
    Grows fs st (copy_include fs mk st name src).1 := by
  simp only [copy_include]
  by_cases h : (assocGet st.copies (mk ("include" :: strComps name))).isSome = true
  · rw [if_pos h]
    exact addEntry_Grows fs st _ _ _
  · rw [if_neg h]
    have hnone : assocGet st.copies (mk ("include" :: strComps name)) = none := by
      cases hl : assocGet st.copies (mk ("include" :: strComps name)) with
      | none => rfl
      | some v => rw [hl] at h; exact absurd rfl h
    refine Grows_trans fs st _ _ ?_ (addEntry_Grows fs _ _ _ _)
    refine ⟨?_, fun _ hh => hh, fun _ hh => hh, ?_, ⟨[], (List.append_nil _).symm⟩,
      fun hh => hh⟩
    · intro k v2 hk
      exact assocGet_cons_fresh st.copies _ _ (assocGet_none_keys _ _ hnone) k v2 hk
    · intro kv hkv
      simp only [List.mem_cons] at hkv
      rcases hkv with hkv | hkv
      · rw [hkv]
        cases hl : lookupFS fs src with
        | none =>
          right; right
          rfl
        | some v =>
          right; left
          exact lookupFS_mem_snd fs _ v hl
      · exact Or.inl hkv

theorem queue_set_Grows (fs : FS) (st : PState) (q : List Entry) :
    Grows fs st { st with queue := q } :=
  ⟨fun _ _ h => h, fun _ h => h, fun _ h => h, fun _ h => Or.inl h,
    ⟨[], (List.append_nil _).symm⟩, fun h => h⟩

theorem processName_Grows (fs : FS) (mk : List String → String) (fallback : String)
    (repoRoot : List String) (st : PState) (e : Entry) (raw : String) :
    Grows fs st (processName fs mk fallback repoRoot st e raw) := by
  simp only [processName]
  by_cases h1 : memB st.seen_includes (normName raw) = true
  · rw [if_pos h1]
    exact Grows_refl fs st
  · rw [if_neg h1]
    cases hres : resolve_include fs st.incdirs fallback repoRoot (normName raw) e with
    | none =>
      simp only [hres]
      exact ⟨fun _ _ hh => hh, fun _ hh => hh, fun _ hh => hh, fun _ hh => Or.inl hh,
        ⟨[], (List.append_nil _).symm⟩, fun hh => hh⟩
    | some src =>
      simp only [hres]
      refine Grows_trans fs st ((copy_include fs mk st (normName raw) src).1) _
        (copy_include_Grows fs mk st (normName raw) src) ?_
      cases hne : (copy_include fs mk st (normName raw) src).2 with
      | some ne =>
        simp only [hne]
        exact ⟨fun _ _ hh => hh, fun _ hh => hh, fun _ hh => List.mem_cons_of_mem _ hh,
          fun _ hh => Or.inl hh, ⟨[], (List.append_nil _).symm⟩, fun hh => hh⟩
      | none =>
        simp only [hne]
        exact ⟨fun _ _ hh => hh, fun _ hh => hh, fun _ hh => List.mem_cons_of_mem _ hh,
          fun _ hh => Or.inl hh, ⟨[], (List.append_nil _).symm⟩, fun hh => hh⟩

theorem processEntry_Grows (fs : FS) (mk : List String → String) (fallback : String)
    (repoRoot : List String) (st : PState) (e : Entry) :
    Grows fs st (processEntry fs mk fallback repoRoot st e) := by
  rw [processEntry]
  generalize scan_active_includes st.defines ((assocGet st.copies e.rel).getD []) = names
  induction names generalizing st with
  | nil => exact Grows_refl fs st
  | cons n rest ih =>
    rw [List.foldl_cons]
    exact Grows_trans fs st _ _ (processName_Grows fs mk fallback repoRoot st e n) (ih _)

theorem driveF_Grows (fs : FS) (mk : List String → String) (fallback : String)
    (repoRoot : List String) (fuel : Nat) : ∀ (st : PState),
    Grows fs st (driveF fs mk fallback repoRoot fuel st) := by
  induction fuel with
  | zero => intro st; exact Grows_refl fs st
  | succ n ih =>
    intro st
    rw [driveF]
    cases hq : st.queue with
    | nil => exact Grows_refl fs st
    | cons e rest =>
      refine Grows_trans fs st _ _ ?_ (ih _)
      exact Grows_trans fs st _ _ (queue_set_Grows fs st rest)
        (processEntry_Grows fs mk fallback repoRoot _ e)

theorem parseLineToks_Grows (fs : FS) (mk : List String → String)
    (recur : PState → List String → PState) (base : List String)
    (hrec : ∀ s q, Grows fs s (recur s q))
    (hsrc : ∀ (s : PState) (b : List String) (t : String), Grows fs s (add_src fs mk s b t)) :
    ∀ (st : PState) (toks : List String),
      Grows fs st (parseLineToks fs mk recur base st toks) := by
  intro st toks
  induction st, toks using parseLineToks.induct fs mk recur base with
  | case1 st => exact Grows_refl fs st
  | case2 st m rest2 nm ih =>
    rw [parseLineToks.eq_def]
    simp only [eq_self_iff_true, if_true]
    by_cases hnm : takeUntilEq m ≠ ""
    · rw [if_pos hnm] at ih ⊢
      exact Grows_trans fs st _ _ (addDefineName_Grows fs st _) ih
    · rw [if_neg hnm] at ih ⊢
      exact ih
  | case3 st => exact Grows_refl fs st
  | case4 st t rest h1 st0 h2 ih =>
    rw [parseLineToks.eq_def]
    simp only [h1, h2, eq_self_iff_true, if_true, if_false]
    refine Grows_trans fs st _ _ ?_ ih
    exact Grows_trans fs st _ _ (applyDefineTok_Grows fs st t) (add_incdir_Grows fs _ base t)
  | case5 st t h1 st0 h2 h3 m rest2 ih =>
    rw [parseLineToks.eq_def]
    simp only [h1, h2, h3, eq_self_iff_true, if_true, if_false]
    refine Grows_trans fs st _ _ ?_ ih
    exact Grows_trans fs st _ _ (applyDefineTok_Grows fs st t) (hrec _ _)
  | case6 st t h1 h2 h3 =>
    rw [parseLineToks.eq_def]
    simp only [h1, h2, h3, eq_self_iff_true, if_true, if_false]
    exact applyDefineTok_Grows fs st t
  | case7 st t rest h1 st0 h2 h3 h4 ih =>
    rw [parseLineToks.eq_def]
    simp only [h1, h2, h3, h4, eq_self_iff_true, if_true, if_false]
    refine Grows_trans fs st _ _ ?_ ih
    exact Grows_trans fs st _ _ (applyDefineTok_Grows fs st t) (hrec _ _)
  | case8 st t rest h1 st0 h2 h3 h4 h5 ih =>
    rw [parseLineToks.eq_def]
    simp only [h1, h2, h3, h4, h5, eq_self_iff_true, if_true, if_false]
    exact Grows_trans fs st _ _ (applyDefineTok_Grows fs st t) ih
  | case9 st t h1 st0 h2 h3 h4 h5 h6 m rest2 ih =>
    rw [parseLineToks.eq_def]
    simp only [h1, h2, h3, h4, h5, h6, eq_self_iff_true, if_true, if_false]
    refine Grows_trans fs st _ _ ?_ ih
    by_cases hv : (decide (t = "-v") || decide (t = "-sv")) = true
    · rw [if_pos hv]
      exact Grows_trans fs st _ _ (applyDefineTok_Grows fs st t) (hsrc _ base m)
    · rw [if_neg hv]
      exact applyDefineTok_Grows fs st t
  | case10 st t h1 h2 h3 h4 h5 h6 =>
    rw [parseLineToks.eq_def]
    simp only [h1, h2, h3, h4, h5, h6, eq_self_iff_true, if_true, if_false]
    exact applyDefineTok_Grows fs st t
  | case11 st t rest h1 st0 h2 h3 h4 h5 h6 h7 ih =>
    rw [parseLineToks.eq_def]
    simp only [h1, h2, h3, h4, h5, h6, h7, eq_self_iff_true, if_true, if_false]
    refine Grows_trans fs st _ _ ?_ ih
    exact Grows_trans fs st _ _ (applyDefineTok_Grows fs st t) (hsrc _ base t)
  | case12 st t rest h1 st0 h2 h3 h4 h5 h6 h7 ih =>
    rw [parseLineToks.eq_def]
    simp only [h1, h2, h3, h4, h5, h6, h7, eq_self_iff_true, if_true, if_false]
    exact Grows_trans fs st _ _ (applyDefineTok_Grows fs st t) ih

theorem parseLinesGo_Grows (fs : FS) (mk : List String → String)
    (recur : PState → List String → PState) (base : List String)
    (hrec : ∀ s q, Grows fs s (recur s q))
    (hsrc : ∀ (s : PState) (b : List String) (t : String), Grows fs s (add_src fs mk s b t)) :
    ∀ (lines : List String) (st : PState),
      Grows fs st (parseLinesGo fs mk recur base st lines) := by
  intro lines
  induction lines with
  | nil => intro st; exact Grows_refl fs st
  | cons raw rest ih =>
    intro st
    rw [parseLinesGo.eq_def]
    by_cases hskip : (pyStrip raw = "" || strStarts (pyStrip raw) "#" ||
        strStarts (pyStrip raw) "//") = true
    · simp only [hskip, if_true]
      exact ih st
    · simp only [hskip, if_false]
      exact Grows_trans fs st _ _ (parseLineToks_Grows fs mk recur base hrec hsrc st _) (ih _)

theorem visited_set_Grows (fs : FS) (st : PState) (p : List String) :
    Grows fs st { st with visited := p :: st.visited } :=
  ⟨fun _ _ h => h, fun _ h => List.mem_cons_of_mem _ h, fun _ h => h, fun _ h => Or.inl h,
    ⟨[], (List.append_nil _).symm⟩, fun h => h⟩

theorem parseListF_Grows (fs : FS) (mk : List String → String)
    (hsrc : ∀ (s : PState) (b : List String) (t : String), Grows fs s (add_src fs mk s b t)) :
    ∀ (fuel : Nat) (st : PState) (p : List String),
      Grows fs st (parseListF fs mk fuel st p) := by
  intro fuel
  induction fuel with
  | zero => intro st p; exact Grows_refl fs st
  | succ n ih =>
    intro st p
    rw [parseListF]
    by_cases hskip : ((lookupFS fs p).isNone || memB st.visited p) = true
    · rw [if_pos hskip]
      exact Grows_refl fs st
    · rw [if_neg hskip]
      refine Grows_trans fs st _ _ (visited_set_Grows fs st p) ?_
      exact parseLinesGo_Grows fs mk _ p.dropLast (fun s q => ih s q) hsrc _ _

theorem parse_list_Grows (fs : FS) (mk : List String → String)
    (hsrc : ∀ (s : PState) (b : List String) (t : String), Grows fs s (add_src fs mk s b t))
    (st : PState) (p : List String) : Grows fs st (parse_list fs mk st p) :=
  parseListF_Grows fs mk hsrc (fs.length + 1) st p

/-- The whole pipeline satisfies `Grows` from the initial state. -/
theorem runCore_Grows (fs : FS) (cfg : Cfg) (c0 : List (String × List String))
    (ed : List String) (rootList : List String) :
    Grows fs (initState c0) (runCore fs cfg c0 (mkRel ed) rootList) := by
  rw [runCore]
  refine Grows_trans fs _ _ _ ?_ (driveF_Grows fs (mkRel ed) cfg.fallback cfg.repoRoot _ _)
  refine Grows_trans fs _ _ _ (parse_list_Grows fs (mkRel ed)
    (fun s b t => add_src_Grows fs ed s b t) (initState c0) rootList) ?_
  exact queue_set_Grows fs _ _

theorem addEntry_copies (st : PState) (rel : String) (hdr : Bool)
    (orig : Option (List String)) : (addEntry st rel hdr orig).1.copies = st.copies := by
  rw [addEntry]
  by_cases h : memB st.seen_rel rel = true
  · rw [if_pos h]
  · rw [if_neg h]

/-- The filesystem of the C4 counterexample: one filelist with one source. -/
def rerunFS : FS := [
  (["p", "f.f"], ["core.sv"]),
  (["p", "core.sv"], ["module m;", "endmodule"])]

/-- First run into an empty export directory at the filesystem root. -/
def rerunOnce : RunOut := runTool rerunFS demoCfg [] [] ["p", "f.f"] "n" "v"

/-- Second run into the same, now populated, export directory. -/
def rerunTwice : RunOut :=
  runTool rerunFS demoCfg rerunOnce.final.copies [] ["p", "f.f"] "n" "v"

/-- Counterexample to claim C4 as stated: a second run into the same export
directory duplicates the already-copied `rtl/core.sv` — the collision
rename in the top-level parse produces `rtl/1_core.sv`, a second copy of
the same original with identical content, and registers it as a new
entry. -/
theorem C4_counterexample :
    assocGet rerunTwice.final.copies "rtl/core.sv" = some ["module m;", "endmodule"] ∧
      assocGet rerunTwice.final.copies "rtl/1_core.sv" = some ["module m;", "endmodule"] ∧
      rerunTwice.final.files_ordered =
        [⟨"rtl/1_core.sv", false, some ["p", "core.sv"]⟩] := by
  refine ⟨by decide, by decide, by decide⟩

/-- Claim C4, amended: a second run never corrupts what a previous run
wrote — every file already present in the export directory keeps its exact
content, include-file copying short-circuits on an existing destination,
and `copy_include` never collision-renames (renaming happens only in
`add_src`, the initial top-level parse); however the initial parse of the
second run does create additional collision-renamed copies of top-level
sources (see the counterexample). -/
theorem C4_idempotenceAmended (fs : FS) (mk : List String → String) (st : PState)
    (name : String) (src : List String)
    (hexists : (assocGet st.copies (mk ("include" :: strComps name))).isSome = true) :
    (copy_include fs mk st name src).1.copies = st.copies ∧
      (∀ (st2 : PState) (name2 : String) (src2 : List String),
        (copy_include fs mk st2 name2 src2).1.copies = st2.copies ∨
          (copy_include fs mk st2 name2 src2).1.copies =
            (mk ("include" :: strComps name2), (lookupFS fs src2).getD []) :: st2.copies) ∧
      (∀ (cfg : Cfg) (c0 : List (String × List String)) (ed rl : List String)
        (cn cv : String) (k : String) (v : List String), assocGet c0 k = some v →
          assocGet (runTool fs cfg c0 ed rl cn cv).final.copies k = some v) := by
  refine ⟨?_, ?_, ?_⟩
  · simp only [copy_include, hexists, if_true]
    exact addEntry_copies _ _ _ _
  · intro st2 name2 src2
    simp only [copy_include]
    by_cases h : (assocGet st2.copies (mk ("include" :: strComps name2))).isSome = true
    · rw [if_pos h]
      left
      exact addEntry_copies _ _ _ _
    · rw [if_neg h]
      right
      exact addEntry_copies _ _ _ _
  · intro cfg c0 ed rl cn cv k v hk
    exact (runCore_Grows fs cfg c0 ed rl).1 k v hk

/-- Witness for the amended C4 at a concrete state with the include copy
already present. -/
theorem C4_witness :
    (copy_include rerunFS (mkRel []) ⟨[], [], [], [], [],
        [("include/x.svh", ["xx"])], [], [], []⟩ "x.svh" ["p", "x.svh"]).1.copies =
      [("include/x.svh", ["xx"])] :=
  (C4_idempotenceAmended rerunFS (mkRel []) ⟨[], [], [], [], [],
    [("include/x.svh", ["xx"])], [], [], []⟩ "x.svh" ["p", "x.svh"] (by decide)).1

/-! ### Claim C8: `relativePath` uniqueness and entry immutability -/

/-- Claim C8: registering an entry whose relative path is already present
adds nothing and returns an absent result; registration preserves the
uniqueness invariant and only ever appends; the invariant holds for the
final state of every run (hence at every point, each intermediate state
being the final state of a shorter run prefix); and the whole worklist
phase only appends entries. -/
theorem C8_unique_relative_paths (st : PState) (rel : String) (hdr : Bool)
    (orig : Option (List String)) (hdup : memB st.seen_rel rel = true) :
    addEntry st rel hdr orig = (st, none) ∧
      (∀ (st2 : PState) (rel2 : String) (hdr2 : Bool) (orig2 : Option (List String)),
        INVr st2 → INVr (addEntry st2 rel2 hdr2 orig2).1 ∧
          ∃ t, (addEntry st2 rel2 hdr2 orig2).1.files_ordered = st2.files_ordered ++ t) ∧
      (∀ (fs : FS) (cfg : Cfg) (c0 : List (String × List String)) (ed rl : List String)
        (cn cv : String), INVr (runTool fs cfg c0 ed rl cn cv).final) ∧
      (∀ (fs : FS) (mk : List String → String) (fallback : String)
        (repoRoot : List String) (fuel : Nat) (st2 : PState),
        ∃ t, (driveF fs mk fallback repoRoot fuel st2).files_ordered =
          st2.files_ordered ++ t) := by
  refine ⟨addEntry_dup st rel hdr orig hdup, ?_, ?_, ?_⟩
  · intro st2 rel2 hdr2 orig2 hinv2
    obtain ⟨_, _, _, _, hgrow, hkeep⟩ := addEntry_Grows [] st2 rel2 hdr2 orig2
    exact ⟨hkeep hinv2, hgrow⟩
  · intro fs cfg c0 ed rl cn cv
    have hinit : INVr (initState c0) := by
      refine ⟨List.nodup_nil, ?_⟩
      intro r
      simp [initState, memB]
    exact (runCore_Grows fs cfg c0 ed rl).2.2.2.2.2 hinit
  · intro fs mk fallback repoRoot fuel st2
    exact (driveF_Grows fs mk fallback repoRoot fuel st2).2.2.2.2.1

/-- Witness for C8 at a concrete one-entry state. -/
theorem C8_witness :
    addEntry ⟨[], [], [], ["rtl/a.sv"], [⟨"rtl/a.sv", false, none⟩], [], [], [], []⟩
        "rtl/a.sv" false none =
      (⟨[], [], [], ["rtl/a.sv"], [⟨"rtl/a.sv", false, none⟩], [], [], [], []⟩, none) :=
  (C8_unique_relative_paths ⟨[], [], [], ["rtl/a.sv"], [⟨"rtl/a.sv", false, none⟩],
    [], [], [], []⟩ "rtl/a.sv" false none (by decide)).1

/-! ### Claim C9: manifests are deterministic and export-dir independent -/

/-- Claim C9: two runs over the same filesystem, filelist and
configuration into two distinct empty export directories produce
byte-identical manifests (the export directory enters only through
`os.path.relpath(dst, export_dir)`, which collapses); and emission is a
function of only each entry's `relativePath` and header flag, so rewriting
any other entry field leaves the manifest byte-identical. -/
theorem C9_deterministic_manifest (fs : FS) (cfg : Cfg) (rl : List String)
    (cn cv : String) (d d' : List String) (entries : List Entry) (f : Entry → Entry)
    (tl : String) (hf : ∀ e, (f e).rel = e.rel ∧ (f e).is_header = e.is_header) :
    (runTool fs cfg [] d rl cn cv).manifest = (runTool fs cfg [] d' rl cn cv).manifest ∧
      manifestText cn cv tl (entries.map f) = manifestText cn cv tl entries := by
  constructor
  · have hmk : mkRel d = mkRel d' := by
      funext xs
      rw [mkRel_eq_nfRel, mkRel_eq_nfRel]
    simp only [runTool]
    rw [hmk]
  · have hline : ∀ e, emitLine (f e) = emitLine e := by
      intro e
      rw [emitLine, emitLine, (hf e).1, (hf e).2]
    have hfilter1 : (entries.map f).filter (fun e => e.is_header) =
        (entries.filter (fun e => e.is_header)).map f := by
      rw [List.filter_map f entries]
      congr 1
      exact List.filter_congr (fun a _ => by
        show ((fun e => e.is_header) ∘ f) a = a.is_header
        exact (hf a).2)
    have hfilter2 : (entries.map f).filter (fun e => !e.is_header) =
        (entries.filter (fun e => !e.is_header)).map f := by
      rw [List.filter_map f entries]
      congr 1
      exact List.filter_congr (fun a _ => by
        show (!(f a).is_header) = (!a.is_header)
        rw [(hf a).2])
    have hjoin : (manifestOrder (entries.map f)).map emitLine =
        (manifestOrder entries).map emitLine := by
      rw [manifestOrder, manifestOrder, hfilter1, hfilter2, ← List.map_append,
        List.map_map]
      exact List.map_eq_map_iff.mpr (fun a _ => hline a)
    rw [manifestText, manifestText, hjoin]

/-! ### Claim C7: the `-f` recursion terminates and visits each list once -/

theorem addDefineName_visited (st : PState) (name : String) :
    (addDefineName st name).visited = st.visited := by
  rw [addDefineName]
  by_cases h : memB st.defines name = true
  · rw [if_pos h]
  · rw [if_neg h]

theorem applyDefineTok_visited (st : PState) (t : String) :
    (applyDefineTok st t).visited = st.visited := by
  rw [applyDefineTok]
  by_cases h1 : strStarts t "+define+" = true
  · rw [if_pos h1]
    generalize (splitKeep '+' (strDrop t 8).data).map String.mk = parts
    induction parts generalizing st with
    | nil => rfl
    | cons part rest ih =>
      rw [List.foldl_cons]
      rw [ih]
      by_cases h2 : takeUntilEq part ≠ ""
      · rw [if_pos h2]
        exact addDefineName_visited st _
      · rw [if_neg h2]
  · rw [if_neg h1]
    by_cases h2 : t = "-D"
    · rw [if_pos h2]
    · rw [if_neg h2]
      by_cases h3 : (strStarts t "-D" && decide (t.length > 2)) = true
      · rw [if_pos h3]
        by_cases h4 : takeUntilEq (strDrop t 2) ≠ ""
        · rw [if_pos h4]
          exact addDefineName_visited st _
        · rw [if_neg h4]
      · rw [if_neg h3]

theorem add_incdir_visited (st : PState) (base : List String) (tok : String) :
    (add_incdir st base tok).visited = st.visited := by
  rw [add_incdir]
  by_cases h : memB st.incdirs (joinPath base
      (if strStarts tok "+incdir+" then strDrop tok 8 else tok)) = true
  · simp [h]
  · simp [h]

theorem addEntry_visited (st : PState) (rel : String) (hdr : Bool)
    (orig : Option (List String)) : (addEntry st rel hdr orig).1.visited = st.visited := by
  rw [addEntry]
  by_cases h : memB st.seen_rel rel = true
  · rw [if_pos h]
  · rw [if_neg h]

theorem add_src_visited (fs : FS) (mk : List String → String) (st : PState)
    (base : List String) (token : String) :
    (add_src fs mk st base token).visited = st.visited := by
  simp only [add_src]
  by_cases h1 : (lookupFS fs (joinPath base token)).isNone = true
  · rw [if_pos h1]
  · rw [if_neg h1]
    by_cases h2 : (!memB HDL_EXTS (lowerStr (pathSuffix (origName (joinPath base token))))) =
        true
    · rw [if_pos h2]
    · rw [if_neg h2]
      exact addEntry_visited _ _ _ _

theorem filter_length_mono {α : Type} (l : List α) (p q : α → Bool)
    (h : ∀ x, q x = true → p x = true) : (l.filter q).length ≤ (l.filter p).length := by
  induction l with
  | nil => exact Nat.le_refl 0
  | cons a rest ih =>
    by_cases hq : q a = true
    · rw [List.filter_cons_of_pos hq, List.filter_cons_of_pos (h a hq)]
      simpa using ih
    · rw [List.filter_cons_of_neg (by simpa using hq)]
      by_cases hp : p a = true
      · rw [List.filter_cons_of_pos hp]
        exact Nat.le_succ_of_le ih
      · rw [List.filter_cons_of_neg (by simpa using hp)]
        exact ih

theorem memB_cons_ne {α : Type} [DecidableEq α] (x a : α) (l : List α) (h : x ≠ a) :
    memB (x :: l) a = memB l a := by
  rw [memB, if_neg h]

theorem ucount_mono (fs : FS) (v1 v2 : List (List String)) (h : ∀ p, p ∈ v1 → p ∈ v2) :
    ucount fs v2 ≤ ucount fs v1 := by
  apply filter_length_mono
  intro x hx
  cases hc : memB v1 x with
  | false => simp
  | true =>
    have hv2 := (memB_iff v2 x).mpr (h x ((memB_iff v1 x).mp hc))
    rw [hv2] at hx
    simp at hx

theorem lookupFS_mem_keys (fs : FS) (p : List String)
    (h : (lookupFS fs p).isSome = true) : p ∈ fs.map Prod.fst := by
  induction fs with
  | nil => simp [lookupFS] at h
  | cons kv rest ih =>
    by_cases he : kv.1 = p
    · simp [← he]
    · rw [show kv = (kv.1, kv.2) from rfl, lookupFS, if_neg he] at h
      simp [ih h]

theorem ucount_cons_lt (fs : FS) (visited : List (List String)) (p : List String)
    (hmem : p ∈ fs.map Prod.fst) (hnew : memB visited p = false) :
    ucount fs (p :: visited) < ucount fs visited := by
  rw [ucount, ucount]
  induction fs with
  | nil => simp at hmem
  | cons kv rest ih =>
    simp only [List.map_cons] at hmem ⊢
    by_cases he : kv.1 = p
    · have h1 : memB (p :: visited) kv.1 = true := by
        rw [he, memB, if_pos rfl]
      have h2 : memB visited kv.1 = false := by rw [he]; exact hnew
      rw [List.filter_cons_of_neg (by simp [h1]), List.filter_cons_of_pos (by simp [h2])]
      have hmono : ((rest.map Prod.fst).filter (fun q => !memB (p :: visited) q)).length ≤
          ((rest.map Prod.fst).filter (fun q => !memB visited q)).length := by
        apply filter_length_mono
        intro x hx
        by_cases hxp : p = x
        · rw [← hxp] at hx
          rw [memB, if_pos rfl] at hx
          simp at hx
        · rw [memB_cons_ne p x visited hxp] at hx
          exact hx
      simp only [List.length_cons]
      omega
    · rcases List.mem_cons.mp hmem with hmem' | hmem'
      · exact absurd hmem'.symm he
      · have hih := ih hmem'
        by_cases hk : memB visited kv.1 = true
        · have hk2 : memB (p :: visited) kv.1 = true := by
            rw [memB_cons_ne p kv.1 visited (fun hpk => he (by rw [← hpk]))]
            exact hk
          rw [List.filter_cons_of_neg (by simp [hk2]), List.filter_cons_of_neg (by simp [hk])]
          exact hih
        · have hk' : memB visited kv.1 = false := by
            cases hkk : memB visited kv.1
            · rfl
            · exact absurd hkk hk
          have hk2 : memB (p :: visited) kv.1 = false := by
            rw [memB_cons_ne p kv.1 visited (fun hpk => he (by rw [← hpk]))]
            exact hk'
          rw [List.filter_cons_of_pos (by simp [hk2]), List.filter_cons_of_pos (by simp [hk'])]
          simpa using hih

theorem ucount_le_length (fs : FS) (visited : List (List String)) :
    ucount fs visited ≤ fs.length := by
  rw [ucount]
  calc ((fs.map Prod.fst).filter (fun q => !memB visited q)).length
      ≤ (fs.map Prod.fst).length := List.length_filter_le _ _
    _ = fs.length := List.length_map _ _

theorem parseLineToks_visited_lift (fs : FS) (mk : List String → String)
    (recur : PState → List String → PState) (base : List String)
    (R : List (List String) → List (List String) → Prop)
    (hrefl : ∀ v, R v v)
    (htrans : ∀ v1 v2 v3, R v1 v2 → R v2 v3 → R v1 v3)
    (hrec : ∀ s q, R s.visited (recur s q).visited) :
    ∀ (st : PState) (toks : List String),
      R st.visited (parseLineToks fs mk recur base st toks).visited := by
  intro st toks
  induction st, toks using parseLineToks.induct fs mk recur base with
  | case1 st => exact hrefl st.visited
  | case2 st m rest2 nm ih =>
    rw [parseLineToks.eq_def]
    simp only [eq_self_iff_true, if_true]
    by_cases hnm : takeUntilEq m ≠ ""
    · rw [if_pos hnm] at ih ⊢
      rw [addDefineName_visited] at ih
      exact ih
    · rw [if_neg hnm] at ih ⊢
      exact ih
  | case3 st => exact hrefl st.visited
  | case4 st t rest h1 st0 h2 ih =>
    rw [parseLineToks.eq_def]
    simp only [h1, h2, eq_self_iff_true, if_true, if_false]
    rw [add_incdir_visited, applyDefineTok_visited] at ih
    exact ih
  | case5 st t h1 st0 h2 h3 m rest2 ih =>
    rw [parseLineToks.eq_def]
    simp only [h1, h2, h3, eq_self_iff_true, if_true, if_false]
    refine htrans _ _ _ ?_ ih
    have := hrec (applyDefineTok st t) (joinPath base m)
    rw [applyDefineTok_visited] at this
    exact this
  | case6 st t h1 h2 h3 =>
    rw [parseLineToks.eq_def]
    simp only [h1, h2, h3, eq_self_iff_true, if_true, if_false]
    show R st.visited (applyDefineTok st t).visited
    rw [applyDefineTok_visited]
    exact hrefl st.visited
  | case7 st t rest h1 st0 h2 h3 h4 ih =>
    rw [parseLineToks.eq_def]
    simp only [h1, h2, h3, h4, eq_self_iff_true, if_true, if_false]
    refine htrans _ _ _ ?_ ih
    have := hrec (applyDefineTok st t) (joinPath base (strDrop t 2))
    rw [applyDefineTok_visited] at this
    exact this
  | case8 st t rest h1 st0 h2 h3 h4 h5 ih =>
    rw [parseLineToks.eq_def]
    simp only [h1, h2, h3, h4, h5, eq_self_iff_true, if_true, if_false]
    rw [applyDefineTok_visited] at ih
    exact ih
  | case9 st t h1 st0 h2 h3 h4 h5 h6 m rest2 ih =>
    rw [parseLineToks.eq_def]
    simp only [h1, h2, h3, h4, h5, h6, eq_self_iff_true, if_true, if_false]
    by_cases hv : (decide (t = "-v") || decide (t = "-sv")) = true
    · rw [if_pos hv] at ih ⊢
      rw [add_src_visited, applyDefineTok_visited] at ih
      exact ih
    · rw [if_neg hv] at ih ⊢
      rw [applyDefineTok_visited] at ih
      exact ih
  | case10 st t h1 h2 h3 h4 h5 h6 =>
    rw [parseLineToks.eq_def]
    simp only [h1, h2, h3, h4, h5, h6, eq_self_iff_true, if_true, if_false]
    show R st.visited (applyDefineTok st t).visited
    rw [applyDefineTok_visited]
    exact hrefl st.visited
  | case11 st t rest h1 st0 h2 h3 h4 h5 h6 h7 ih =>
    rw [parseLineToks.eq_def]
    simp only [h1, h2, h3, h4, h5, h6, h7, eq_self_iff_true, if_true, if_false]
    rw [add_src_visited, applyDefineTok_visited] at ih
    exact ih
  | case12 st t rest h1 st0 h2 h3 h4 h5 h6 h7 ih =>
    rw [parseLineToks.eq_def]
    simp only [h1, h2, h3, h4, h5, h6, h7, eq_self_iff_true, if_true, if_false]
    rw [applyDefineTok_visited] at ih
    exact ih

theorem parseLinesGo_visited_lift (fs : FS) (mk : List String → String)
    (recur : PState → List String → PState) (base : List String)
    (R : List (List String) → List (List String) → Prop)
    (hrefl : ∀ v, R v v)
    (htrans : ∀ v1 v2 v3, R v1 v2 → R v2 v3 → R v1 v3)
    (hrec : ∀ s q, R s.visited (recur s q).visited) :
    ∀ (lines : List String) (st : PState),
      R st.visited (parseLinesGo fs mk recur base st lines).visited := by
  intro lines
  induction lines with
  | nil => intro st; exact hrefl st.visited
  | cons raw rest ih =>
    intro st
    rw [parseLinesGo.eq_def]
    by_cases hskip : (pyStrip raw = "" || strStarts (pyStrip raw) "#" ||
        strStarts (pyStrip raw) "//") = true
    · simp only [hskip, if_true]
      exact ih st
    · simp only [hskip, if_false]
      exact htrans _ _ _
        (parseLineToks_visited_lift fs mk recur base R hrefl htrans hrec st _) (ih _)

theorem parseListF_visited_lift (fs : FS) (mk : List String → String)
    (R : List (List String) → List (List String) → Prop)
    (hrefl : ∀ v, R v v)
    (htrans : ∀ v1 v2 v3, R v1 v2 → R v2 v3 → R v1 v3)
    (hcons : ∀ (v : List (List String)) (p : List String), memB v p = false → R v (p :: v)) :
    ∀ (fuel : Nat) (st : PState) (p : List String),
      R st.visited (parseListF fs mk fuel st p).visited := by
  intro fuel
  induction fuel with
  | zero => intro st p; exact hrefl st.visited
  | succ n ih =>
    intro st p
    rw [parseListF]
    by_cases hskip : ((lookupFS fs p).isNone || memB st.visited p) = true
    · rw [if_pos hskip]
      exact hrefl st.visited
    · rw [if_neg hskip]
      have hnew : memB st.visited p = false := by
        cases hmm : memB st.visited p
        · rfl
        · exact absurd (by rw [hmm]; simp) hskip
      refine htrans _ _ _ (hcons st.visited p hnew) ?_
      exact parseLinesGo_visited_lift fs mk (fun s q => parseListF fs mk n s q) p.dropLast R
        hrefl htrans (fun s q => ih s q) ((lookupFS fs p).getD [])
        { st with visited := p :: st.visited }

theorem parseLineToks_agree (fs : FS) (mk : List String → String) (base : List String)
    (V : List (List String)) (r1 r2 : PState → List String → PState)
    (hmono : ∀ (s : PState) (q : List String) (x : List String),
      x ∈ s.visited → x ∈ (r1 s q).visited)
    (hagree : ∀ (s : PState) (q : List String), (∀ x ∈ V, x ∈ s.visited) →
      r1 s q = r2 s q) :
    ∀ (st : PState) (toks : List String), (∀ x ∈ V, x ∈ st.visited) →
      parseLineToks fs mk r1 base st toks = parseLineToks fs mk r2 base st toks := by
  intro st toks
  induction st, toks using parseLineToks.induct fs mk r1 base with
  | case1 st => intro hV; rfl
  | case2 st m rest2 nm ih =>
    intro hV
    rw [parseLineToks.eq_def, parseLineToks.eq_def]
    simp only [eq_self_iff_true, if_true]
    by_cases hnm : takeUntilEq m ≠ ""
    · rw [if_pos hnm] at ih ⊢
      exact ih (fun x hx => by rw [addDefineName_visited]; exact hV x hx)
    · rw [if_neg hnm] at ih ⊢
      exact ih hV
  | case3 st => intro hV; rfl
  | case4 st t rest h1 st0 h2 ih =>
    intro hV
    rw [parseLineToks.eq_def, parseLineToks.eq_def]
    simp only [h1, h2, eq_self_iff_true, if_true, if_false]
    exact ih (fun x hx => by
      rw [add_incdir_visited, applyDefineTok_visited]; exact hV x hx)
  | case5 st t h1 st0 h2 h3 m rest2 ih =>
    intro hV
    rw [parseLineToks.eq_def, parseLineToks.eq_def]
    simp only [h1, h2, h3, eq_self_iff_true, if_true, if_false]
    have hV0 : ∀ x ∈ V, x ∈ (applyDefineTok st t).visited := fun x hx => by
      rw [applyDefineTok_visited]; exact hV x hx
    have heq := hagree (applyDefineTok st t) (joinPath base m) hV0
    rw [← heq]
    exact ih (fun x hx => hmono _ _ x (hV0 x hx))
  | case6 st t h1 h2 h3 =>
    intro hV
    rw [parseLineToks.eq_def, parseLineToks.eq_def]
    simp only [h1, h2, h3, eq_self_iff_true, if_true, if_false]
    rfl
  | case7 st t rest h1 st0 h2 h3 h4 ih =>
    intro hV
    rw [parseLineToks.eq_def, parseLineToks.eq_def]
    simp only [h1, h2, h3, h4, eq_self_iff_true, if_true, if_false]
    have hV0 : ∀ x ∈ V, x ∈ (applyDefineTok st t).visited := fun x hx => by
      rw [applyDefineTok_visited]; exact hV x hx
    have heq := hagree (applyDefineTok st t) (joinPath base (strDrop t 2)) hV0
    rw [← heq]
    exact ih (fun x hx => hmono _ _ x (hV0 x hx))
  | case8 st t rest h1 st0 h2 h3 h4 h5 ih =>
    intro hV
    rw [parseLineToks.eq_def, parseLineToks.eq_def]
    simp only [h1, h2, h3, h4, h5, eq_self_iff_true, if_true, if_false]
    exact ih (fun x hx => by rw [applyDefineTok_visited]; exact hV x hx)
  | case9 st t h1 st0 h2 h3 h4 h5 h6 m rest2 ih =>
    intro hV
    rw [parseLineToks.eq_def, parseLineToks.eq_def]
    simp only [h1, h2, h3, h4, h5, h6, eq_self_iff_true, if_true, if_false]
    by_cases hv : (decide (t = "-v") || decide (t = "-sv")) = true
    · rw [if_pos hv] at ih ⊢
      exact ih (fun x hx => by
        rw [add_src_visited, applyDefineTok_visited]; exact hV x hx)
    · rw [if_neg hv] at ih ⊢
      exact ih (fun x hx => by rw [applyDefineTok_visited]; exact hV x hx)
  | case10 st t h1 h2 h3 h4 h5 h6 =>
    intro hV
    rw [parseLineToks.eq_def, parseLineToks.eq_def]
    simp only [h1, h2, h3, h4, h5, h6, eq_self_iff_true, if_true, if_false]
    rfl
  | case11 st t rest h1 st0 h2 h3 h4 h5 h6 h7 ih =>
    intro hV
    rw [parseLineToks.eq_def, parseLineToks.eq_def]
    simp only [h1, h2, h3, h4, h5, h6, h7, eq_self_iff_true, if_true, if_false]
    exact ih (fun x hx => by
      rw [add_src_visited, applyDefineTok_visited]; exact hV x hx)
  | case12 st t rest h1 st0 h2 h3 h4 h5 h6 h7 ih =>
    intro hV
    rw [parseLineToks.eq_def, parseLineToks.eq_def]
    simp only [h1, h2, h3, h4, h5, h6, h7, eq_self_iff_true, if_true, if_false]
    exact ih (fun x hx => by rw [applyDefineTok_visited]; exact hV x hx)

theorem parseLinesGo_agree (fs : FS) (mk : List String → String) (base : List String)
    (V : List (List String)) (r1 r2 : PState → List String → PState)
    (hmono : ∀ (s : PState) (q : List String) (x : List String),
      x ∈ s.visited → x ∈ (r1 s q).visited)
    (hagree : ∀ (s : PState) (q : List String), (∀ x ∈ V, x ∈ s.visited) →
      r1 s q = r2 s q) :
    ∀ (lines : List String) (st : PState), (∀ x ∈ V, x ∈ st.visited) →
      parseLinesGo fs mk r1 base st lines = parseLinesGo fs mk r2 base st lines := by
  intro lines
  induction lines with
  | nil => intro st hV; rfl
  | cons raw rest ih =>
    intro st hV
    rw [parseLinesGo.eq_def, parseLinesGo.eq_def]
    by_cases hskip : (pyStrip raw = "" || strStarts (pyStrip raw) "#" ||
        strStarts (pyStrip raw) "//") = true
    · simp only [hskip, if_true]
      exact ih st hV
    · simp only [hskip, if_false]
      rw [← parseLineToks_agree fs mk base V r1 r2 hmono hagree st _ hV]
      refine ih _ ?_
      intro x hx
      exact parseLineToks_visited_lift fs mk r1 base
        (fun v v' => ∀ y, y ∈ v → y ∈ v') (fun v y hy => hy)
        (fun v1 v2 v3 a b y hy => b y (a y hy))
        (fun s q y hy => hmono s q y hy) st (wsTokens (pyStrip raw)) x (hV x hx)

theorem parseListF_stable (fs : FS) (mk : List String → String) :
    ∀ (k : Nat) (st : PState) (p : List String) (n m : Nat),
      ucount fs st.visited ≤ k → ucount fs st.visited < n → ucount fs st.visited < m →
      parseListF fs mk n st p = parseListF fs mk m st p := by
  intro k
  induction k using Nat.strong_induction_on with
  | _ k ihk =>
    intro st p n m hk hn hm
    cases n with
    | zero => omega
    | succ n' =>
      cases m with
      | zero => omega
      | succ m' =>
        rw [parseListF, parseListF]
        by_cases hskip : ((lookupFS fs p).isNone || memB st.visited p) = true
        · rw [if_pos hskip, if_pos hskip]
        · rw [if_neg hskip, if_neg hskip]
          have hnotnone : (lookupFS fs p).isNone = false := by
            cases hl : (lookupFS fs p).isNone
            · rfl
            · exact absurd (by rw [hl]; simp) hskip
          have hpmem : p ∈ fs.map Prod.fst := by
            apply lookupFS_mem_keys
            cases hl2 : lookupFS fs p
            · rw [hl2] at hnotnone
              simp at hnotnone
            · rfl
          have hnew : memB st.visited p = false := by
            cases hmm : memB st.visited p
            · rfl
            · exact absurd (by rw [hmm]; simp) hskip
          have hdrop : ucount fs (p :: st.visited) < ucount fs st.visited :=
            ucount_cons_lt fs st.visited p hpmem hnew
          apply parseLinesGo_agree fs mk p.dropLast (p :: st.visited)
            (fun s q => parseListF fs mk n' s q) (fun s q => parseListF fs mk m' s q)
          · intro s q x hx
            exact parseListF_visited_lift fs mk
              (fun v v' => ∀ y, y ∈ v → y ∈ v') (fun v y hy => hy)
              (fun v1 v2 v3 a b y hy => b y (a y hy))
              (fun v y _ z hz => List.mem_cons_of_mem _ hz) n' s q x hx
          · intro s q hsub
            have hle : ucount fs s.visited ≤ ucount fs (p :: st.visited) :=
              ucount_mono fs (p :: st.visited) s.visited hsub
            exact ihk (ucount fs s.visited) (by omega) s q n' m'
              (Nat.le_refl _) (by omega) (by omega)
          · intro x hx
            exact hx

/-- Claim C7: filelist parsing terminates on every `-f` graph — beyond the
`ucount` bound the fuel is irrelevant, and `parse_list`'s default bound
`fs.length + 1` is always sufficient; the visited set stays duplicate-free,
so each distinct canonical path is parsed at most once; and a list whose
canonical path is already in `VisitedLists` is skipped silently, leaving
the state untouched. -/
theorem C7_parse_terminates_each_list_once (fs : FS) (mk : List String → String)
    (st : PState) (p : List String) (n m : Nat)
    (hn : ucount fs st.visited < n) (hm : ucount fs st.visited < m)
    (hnd : st.visited.Nodup) :
    parseListF fs mk n st p = parseListF fs mk m st p ∧
      parse_list fs mk st p = parseListF fs mk n st p ∧
      (parse_list fs mk st p).visited.Nodup ∧
      (∀ (st2 : PState) (q : List String) (fuel : Nat), memB st2.visited q = true →
        parseListF fs mk (fuel + 1) st2 q = st2) := by
  refine ⟨?_, ?_, ?_, ?_⟩
  · exact parseListF_stable fs mk (ucount fs st.visited) st p n m (Nat.le_refl _) hn hm
  · rw [parse_list]
    apply parseListF_stable fs mk (ucount fs st.visited) st p _ n (Nat.le_refl _) _ hn
    have := ucount_le_length fs st.visited
    omega
  · rw [parse_list]
    refine parseListF_visited_lift fs mk (fun v v' => v.Nodup → v'.Nodup)
      (fun v h => h) (fun v1 v2 v3 a b h => b (a h)) ?_ (fs.length + 1) st p hnd
    intro v q hq hv
    exact List.nodup_cons.mpr ⟨fun hmem => by
      rw [(memB_iff v q).mpr hmem] at hq
      simp at hq, hv⟩
  · intro st2 q fuel hq
    rw [parseListF]
    rw [if_pos (by rw [hq]; simp)]

/-- The cyclic filelist graph: `a.f` includes `b.f` which includes `a.f`. -/
def cycFS : FS := [
  (["p", "a.f"], ["-f b.f"]),
  (["p", "b.f"], ["-f a.f"])]

/-- Witness for C7 on the cyclic graph: any sufficient fuel gives the same
result as the default bound, the visited set ends duplicate-free, and
re-parsing a visited list is a no-op. -/
theorem C7_witness :
    parseListF cycFS (mkRel []) 3 (initState []) ["p", "a.f"] =
        parseListF cycFS (mkRel []) 4 (initState []) ["p", "a.f"] ∧
      parse_list cycFS (mkRel []) (initState []) ["p", "a.f"] =
        parseListF cycFS (mkRel []) 3 (initState []) ["p", "a.f"] ∧
      (parse_list cycFS (mkRel []) (initState []) ["p", "a.f"]).visited.Nodup ∧
      (∀ (st2 : PState) (q : List String) (fuel : Nat), memB st2.visited q = true →
        parseListF cycFS (mkRel []) (fuel + 1) st2 q = st2) :=
  C7_parse_terminates_each_list_once cycFS (mkRel []) (initState []) ["p", "a.f"] 3 4
    (by decide) (by decide) (by decide)

/-! ### Claim C3: diagnostics and run completion

The worklist terminates because each popped entry either shrinks the queue
or adds a never-seen candidate name to `seen_includes`; `driveMeasure`
falls by at least one per iteration. -/

theorem unseen_cons_lt {α : Type} [DecidableEq α] (cands seen : List α) (a : α)
    (hmem : a ∈ cands) (hnew : memB seen a = false) :
    (cands.filter (fun n => !memB (a :: seen) n)).length <
      (cands.filter (fun n => !memB seen n)).length := by
  induction cands with
  | nil => simp at hmem
  | cons c rest ih =>
    by_cases he : c = a
    · have h1 : memB (a :: seen) c = true := by rw [he, memB, if_pos rfl]
      have h2 : memB seen c = false := by rw [he]; exact hnew
      rw [List.filter_cons_of_neg (by simp [h1]), List.filter_cons_of_pos (by simp [h2])]
      have hmono : (rest.filter (fun n => !memB (a :: seen) n)).length ≤
          (rest.filter (fun n => !memB seen n)).length := by
        apply filter_length_mono
        intro x hx
        by_cases hxa : a = x
        · rw [← hxa, memB, if_pos rfl] at hx
          simp at hx
        · rw [memB_cons_ne a x seen hxa] at hx
          exact hx
      simp only [List.length_cons]
      omega
    · rcases List.mem_cons.mp hmem with hmem' | hmem'
      · exact absurd hmem'.symm he
      · have hih := ih hmem'
        by_cases hk : memB seen c = true
        · have hk2 : memB (a :: seen) c = true := by
            rw [memB_cons_ne a c seen (fun hac => he (by rw [← hac]))]
            exact hk
          rw [List.filter_cons_of_neg (by simp [hk2]), List.filter_cons_of_neg (by simp [hk])]
          exact hih
        · have hk' : memB seen c = false := by
            cases hkk : memB seen c
            · rfl
            · exact absurd hkk hk
          have hk2 : memB (a :: seen) c = false := by
            rw [memB_cons_ne a c seen (fun hac => he (by rw [← hac]))]
            exact hk'
          rw [List.filter_cons_of_pos (by simp [hk2]), List.filter_cons_of_pos (by simp [hk'])]
          simpa using hih

theorem classifyLine_include (raw n : String) (h : classifyLine raw = .kInclude n) :
    matchIncludeChars (pyStripChars raw.data) = some n := by
  simp only [classifyLine] at h
  cases h1 : matchDirIdent "`ifdef" (pyStripChars raw.data) with
  | some m => rw [h1] at h; exact absurd h (by simp)
  | none =>
    rw [h1] at h
    cases h2 : matchDirIdent "`ifndef" (pyStripChars raw.data) with
    | some m => rw [h2] at h; exact absurd h (by simp)
    | none =>
      rw [h2] at h
      by_cases h3 : matchDirBare "`else" (pyStripChars raw.data) = true
      · rw [if_pos h3] at h; exact absurd h (by simp)
      · rw [if_neg h3] at h
        cases h4 : matchDirIdent "`elsif" (pyStripChars raw.data) with
        | some m => rw [h4] at h; exact absurd h (by simp)
        | none =>
          rw [h4] at h
          by_cases h5 : matchDirBare "`endif" (pyStripChars raw.data) = true
          · rw [if_pos h5] at h; exact absurd h (by simp)
          · rw [if_neg h5] at h
            cases h6 : matchIncludeChars (pyStripChars raw.data) with
            | some n' =>
              rw [h6] at h
              simp only [LineKind.kInclude.injEq] at h
              rw [h]
            | none => rw [h6] at h; exact absurd h (by simp)

theorem scanStep_acc (defines : List String) (stack : List Bool) (acc : List String)
    (raw : String) :
    (scanStep defines (stack, acc) raw).2 = acc ∨
      ∃ nm, classifyLine raw = .kInclude nm ∧
        (scanStep defines (stack, acc) raw).2 = acc ++ [nm] := by
  cases hc : classifyLine raw with
  | kIfdefD m => simp only [scanStep, hc]; left; trivial
  | kIfndefD m => simp only [scanStep, hc]; left; trivial
  | kElse =>
    simp only [scanStep, hc]
    match stack with
    | [] => left; trivial
    | [b] => left; trivial
    | prev :: b :: rest => left; trivial
  | kElsif m =>
    simp only [scanStep, hc]
    match stack with
    | [] => left; trivial
    | [b] => left; trivial
    | prev :: b :: rest => left; trivial
  | kEndif =>
    simp only [scanStep, hc]
    match stack with
    | [] => left; trivial
    | [b] => left; trivial
    | prev :: b :: rest => left; trivial
  | kInclude n =>
    simp only [scanStep, hc]
    by_cases ht : stack.headD true = true
    · rw [if_pos ht]
      right
      exact ⟨n, rfl, rfl⟩
    · rw [if_neg ht]
      left
      trivial
  | kOther => simp only [scanStep, hc]; left; trivial

theorem scan_sub_includeNames (defines : List String) (lines : List String) :
    ∀ n ∈ scan_active_includes defines lines, n ∈ includeNamesOf lines := by
  have main : ∀ (ls : List String) (stack : List Bool) (acc : List String)
      (n : String), n ∈ (ls.foldl (scanStep defines) (stack, acc)).2 →
      n ∈ acc ∨ n ∈ includeNamesOf ls := by
    intro ls
    induction ls with
    | nil => intro stack acc n hn; exact Or.inl hn
    | cons l rest ih =>
      intro stack acc n hn
      rw [List.foldl_cons] at hn
      have hstep : scanStep defines (stack, acc) l =
          ((scanStep defines (stack, acc) l).1, (scanStep defines (stack, acc) l).2) := rfl
      rw [hstep] at hn
      rcases ih _ _ n hn with hacc | hrest
      · rcases scanStep_acc defines stack acc l with heq | ⟨nm, hcl, heq⟩
        · rw [heq] at hacc
          exact Or.inl hacc
        · rw [heq] at hacc
          rcases List.mem_append.mp hacc with h | h
          · exact Or.inl h
          · right
            rw [List.mem_singleton] at h
            subst h
            rw [includeNamesOf, List.mem_filterMap]
            exact ⟨l, List.mem_cons_self _ _, classifyLine_include l n hcl⟩
      · right
        rw [includeNamesOf, List.mem_filterMap] at hrest ⊢
        obtain ⟨l2, hl2, he⟩ := hrest
        exact ⟨l2, List.mem_cons_of_mem _ hl2, he⟩
  intro n hn
  exact (main lines [true] [] n hn).resolve_left (by simp)

theorem addEntry_seen_includes (st : PState) (rel : String) (hdr : Bool)
    (orig : Option (List String)) :
    (addEntry st rel hdr orig).1.seen_includes = st.seen_includes := by
  rw [addEntry]
  by_cases h : memB st.seen_rel rel = true
  · rw [if_pos h]
  · rw [if_neg h]

theorem addEntry_queue (st : PState) (rel : String) (hdr : Bool)
    (orig : Option (List String)) : (addEntry st rel hdr orig).1.queue = st.queue := by
  rw [addEntry]
  by_cases h : memB st.seen_rel rel = true
  · rw [if_pos h]
  · rw [if_neg h]

theorem copy_include_seen_includes (fs : FS) (mk : List String → String) (st : PState)
    (name : String) (src : List String) :
    (copy_include fs mk st name src).1.seen_includes = st.seen_includes := by
  simp only [copy_include]
  by_cases h : (assocGet st.copies (mk ("include" :: strComps name))).isSome = true
  · rw [if_pos h]
    exact addEntry_seen_includes _ _ _ _
  · rw [if_neg h]
    exact addEntry_seen_includes _ _ _ _

theorem copy_include_queue (fs : FS) (mk : List String → String) (st : PState)
    (name : String) (src : List String) :
    (copy_include fs mk st name src).1.queue = st.queue := by
  simp only [copy_include]
  by_cases h : (assocGet st.copies (mk ("include" :: strComps name))).isSome = true
  · rw [if_pos h]
    exact addEntry_queue _ _ _ _
  · rw [if_neg h]
    exact addEntry_queue _ _ _ _

/-- Every copy's content is either pre-existing export content, a source
file's content, or empty: the driver invariant bounding yieldable names. -/
def ContOK (fs : FS) (c0 : List (String × List String)) (st : PState) : Prop :=
  ∀ kv, kv ∈ st.copies → kv ∈ c0 ∨ kv.2 ∈ fs.map Prod.snd ∨ kv.2 = []

theorem ContOK_of_Grows (fs : FS) (c0 : List (String × List String)) (st st' : PState)
    (hok : ContOK fs c0 st) (hg : Grows fs st st') : ContOK fs c0 st' := by
  intro kv hkv
  rcases hg.2.2.2.1 kv hkv with h | h
  · exact hok kv h
  · exact Or.inr h

theorem contents_candNames (fs : FS) (c0 : List (String × List String)) (st : PState)
    (hok : ContOK fs c0 st) (e : Entry) (raw : String)
    (hraw : raw ∈ scan_active_includes st.defines ((assocGet st.copies e.rel).getD [])) :
    normName raw ∈ candNames fs c0 := by
  cases hget : assocGet st.copies e.rel with
  | none =>
    rw [hget] at hraw
    simp [scan_active_includes] at hraw
  | some c =>
    rw [hget] at hraw
    have hmemc := assocGet_mem st.copies e.rel c hget
    have hnames := scan_sub_includeNames st.defines c raw hraw
    rcases hok (e.rel, c) hmemc with h | h | h
    · rw [candNames, List.mem_map]
      refine ⟨raw, ?_, rfl⟩
      apply List.mem_flatMap_of_mem ?_ hnames
      rw [List.mem_append]
      right
      rw [List.mem_map]
      exact ⟨(e.rel, c), h, rfl⟩
    · rw [candNames, List.mem_map]
      refine ⟨raw, ?_, rfl⟩
      apply List.mem_flatMap_of_mem ?_ hnames
      rw [List.mem_append]
      exact Or.inl h
    · rw [show ((e.rel, c) : String × List String).2 = c from rfl] at h
      rw [h] at hraw
      simp [scan_active_includes] at hraw

theorem processName_measure (fs : FS) (mk : List String → String) (fallback : String)
    (repoRoot : List String) (c0 : List (String × List String)) (st : PState) (e : Entry)
    (raw : String) (hcand : normName raw ∈ candNames fs c0) :
    driveMeasure fs c0 (processName fs mk fallback repoRoot st e raw) ≤
      driveMeasure fs c0 st := by
  simp only [processName]
  by_cases h1 : memB st.seen_includes (normName raw) = true
  · rw [if_pos h1]
  · rw [if_neg h1]
    have hnew : memB st.seen_includes (normName raw) = false := by
      cases hh : memB st.seen_includes (normName raw)
      · rfl
      · exact absurd hh h1
    have hdec := unseen_cons_lt (candNames fs c0) st.seen_includes (normName raw) hcand hnew
    cases hres : resolve_include fs st.incdirs fallback repoRoot (normName raw) e with
    | none =>
      simp only [hres]
      exact Nat.le_refl _
    | some src =>
      simp only [hres]
      have hseen := copy_include_seen_includes fs mk st (normName raw) src
      have hqueue := copy_include_queue fs mk st (normName raw) src
      cases hne : (copy_include fs mk st (normName raw) src).2 with
      | some ne =>
        simp only [hne]
        show ((candNames fs c0).filter (fun n => !memB (normName raw ::
            (copy_include fs mk st (normName raw) src).1.seen_includes) n)).length +
            ((copy_include fs mk st (normName raw) src).1.queue ++ [ne]).length ≤
          ((candNames fs c0).filter (fun n => !memB st.seen_includes n)).length +
            st.queue.length
        rw [hseen, hqueue]
        simp only [List.length_append, List.length_singleton]
        omega
      | none =>
        simp only [hne]
        show ((candNames fs c0).filter (fun n => !memB (normName raw ::
            (copy_include fs mk st (normName raw) src).1.seen_includes) n)).length +
            (copy_include fs mk st (normName raw) src).1.queue.length ≤
          ((candNames fs c0).filter (fun n => !memB st.seen_includes n)).length +
            st.queue.length
        rw [hseen, hqueue]
        omega

theorem processEntry_measure (fs : FS) (mk : List String → String) (fallback : String)
    (repoRoot : List String) (c0 : List (String × List String)) (st : PState) (e : Entry)
    (hok : ContOK fs c0 st) :
    driveMeasure fs c0 (processEntry fs mk fallback repoRoot st e) ≤
      driveMeasure fs c0 st := by
  rw [processEntry]
  have hcands : ∀ raw ∈ scan_active_includes st.defines
      ((assocGet st.copies e.rel).getD []), normName raw ∈ candNames fs c0 :=
    fun raw hraw => contents_candNames fs c0 st hok e raw hraw
  clear hok
  revert hcands
  generalize scan_active_includes st.defines ((assocGet st.copies e.rel).getD []) = names
  induction names generalizing st with
  | nil => intro hcands; exact Nat.le_refl _
  | cons n rest ih =>
    intro hcands
    rw [List.foldl_cons]
    refine Nat.le_trans (ih (processName fs mk fallback repoRoot st e n) ?_)
      (processName_measure fs mk fallback repoRoot c0 st e n
        (hcands n (List.mem_cons_self _ _)))
    intro raw hraw
    exact hcands raw (List.mem_cons_of_mem _ hraw)

theorem driveF_empties (fs : FS) (mk : List String → String) (fallback : String)
    (repoRoot : List String) (c0 : List (String × List String)) :
    ∀ (k : Nat) (st : PState), ContOK fs c0 st → driveMeasure fs c0 st ≤ k →
      (driveF fs mk fallback repoRoot k st).queue = [] := by
  intro k
  induction k with
  | zero =>
    intro st hok hm
    rw [driveF]
    rw [driveMeasure] at hm
    exact List.eq_nil_of_length_eq_zero (by omega)
  | succ n ih =>
    intro st hok hm
    rw [driveF]
    cases hq : st.queue with
    | nil => exact hq
    | cons e rest =>
      apply ih
      · refine ContOK_of_Grows fs c0 _ _ (ContOK_of_Grows fs c0 _ _ hok
          (queue_set_Grows fs st rest)) ?_
        exact processEntry_Grows fs mk fallback repoRoot _ e
      · have hstep2 : driveMeasure fs c0
            (processEntry fs mk fallback repoRoot { st with queue := rest } e) ≤
            ((candNames fs c0).filter (fun n => !memB st.seen_includes n)).length +
              rest.length :=
          processEntry_measure fs mk fallback repoRoot c0 { st with queue := rest } e
            (fun kv hkv => hok kv hkv)
        have hm2 : ((candNames fs c0).filter
            (fun n => !memB st.seen_includes n)).length + st.queue.length ≤ n + 1 := hm
        rw [hq] at hm2
        simp only [List.length_cons] at hm2
        omega

/-- The worklist driver always drains its queue: `runCore`'s fuel
`driveMeasure` is sufficient, so the `while queue:` loop terminates and
the run reaches manifest emission. -/
theorem runCore_queue_empty (fs : FS) (cfg : Cfg) (c0 : List (String × List String))
    (ed : List String) (rootList : List String) :
    (runCore fs cfg c0 (mkRel ed) rootList).queue = [] := by
  rw [runCore]
  apply driveF_empties fs (mkRel ed) cfg.fallback cfg.repoRoot c0 _ _ ?_ (Nat.le_refl _)
  have hinit : ContOK fs c0 (initState c0) := fun kv hkv => Or.inl hkv
  have h1 : ContOK fs c0 (parse_list fs (mkRel ed) (initState c0) rootList) :=
    ContOK_of_Grows fs c0 (initState c0) _ hinit
      (parse_list_Grows fs (mkRel ed) (fun s b t => add_src_Grows fs ed s b t) _ _)
  exact ContOK_of_Grows fs c0 _ _ h1 (queue_set_Grows fs _ _)

/-- The C3 counterexample filesystem: two sources both including a name
that resolves nowhere. -/
def warnFS : FS := [
  (["p", "f.f"], ["a.sv", "b.sv"]),
  (["p", "a.sv"], ["`include \x22missing.svh\x22"]),
  (["p", "b.sv"], ["`include \x22missing.svh\x22"])]

/-- The C3 counterexample run. -/
def warnRun : RunOut := runTool warnFS demoCfg [] [] ["p", "f.f"] "n" "v"

/-- Counterexample to claim C3 as stated: the single unresolved name
`missing.svh`, referenced from two files, produces two warning lines, not
one — `seen_includes` records only successfully resolved names, so an
unresolved name is re-resolved at every reference. -/
theorem C3_counterexample :
    warnRun.final.warnings =
      [warnLine "missing.svh" "rtl/a.sv", warnLine "missing.svh" "rtl/b.sv"] ∧
      warnRun.final.warnings.length = 2 := by
  refine ⟨by decide, by decide⟩

/-- Claim C3, amended: every unresolved include reference produces exactly
one warning line naming it (so a name referenced from several files is
warned once per reference); a name already in `seenIncludes` — which
records successfully resolved names — is skipped without re-resolution;
and the run still succeeds: the worklist drains, the manifest text is
produced, completion is announced with the manifest's absolute path, and
the process exits 0 (usage errors alone exit 2). -/
theorem C3_warning_per_unresolved_reference (fs : FS) (mk : List String → String)
    (fallback : String) (repoRoot : List String) (st : PState) (e : Entry) (raw : String)
    (hnew : memB st.seen_includes (normName raw) = false)
    (hfail : resolve_include fs st.incdirs fallback repoRoot (normName raw) e = none) :
    processName fs mk fallback repoRoot st e raw =
        { st with warnings := st.warnings ++ [warnLine (normName raw) e.rel] } ∧
      (∀ (st2 : PState) (e2 : Entry) (raw2 : String),
        memB st2.seen_includes (normName raw2) = true →
        processName fs mk fallback repoRoot st2 e2 raw2 = st2) ∧
      (∀ (cfg : Cfg) (c0 : List (String × List String)) (ed rl : List String)
        (cn cv : String),
        (runTool fs cfg c0 ed rl cn cv).final.queue = [] ∧
          (runTool fs cfg c0 ed rl cn cv).message =
            "Wrote monocore to /" ++
              joinComps (ed ++ [(cfg.coreFileBase.getD (lastColonSeg cn)) ++ ".core"])) ∧
      (∀ (cfg : Cfg) (c0 : List (String × List String)) (prog fl eds cn cv : String),
        (mainTool fs cfg c0 [prog, fl, eds, cn, cv]).1 = 0 ∧
          (mainTool fs cfg c0 [prog]).1 = 2) := by
  refine ⟨?_, ?_, ?_, ?_⟩
  · simp only [processName]
    rw [if_neg (by rw [hnew]; simp)]
    simp only [hfail]
  · intro st2 e2 raw2 hseen
    simp only [processName]
    rw [if_pos hseen]
  · intro cfg c0 ed rl cn cv
    exact ⟨runCore_queue_empty fs cfg c0 ed rl, rfl⟩
  · intro cfg c0 prog fl eds cn cv
    exact ⟨rfl, rfl⟩

/-- Witness for the amended C3 at the counterexample's first unresolved
reference. -/
theorem C3_witness :
    processName warnFS (mkRel []) "disabled" [] (initState [])
        ⟨"rtl/a.sv", false, some ["p", "a.sv"]⟩ "missing.svh" =
      { initState [] with warnings := [warnLine "missing.svh" "rtl/a.sv"] } :=
  (C3_warning_per_unresolved_reference warnFS (mkRel []) "disabled" [] (initState [])
    ⟨"rtl/a.sv", false, some ["p", "a.sv"]⟩ "missing.svh" (by decide) (by decide)).1

/-- Witness for C6 at a concrete two-entry list. -/
theorem C6_witness :
    (∀ (i j : Nat)
        (hi : i < (manifestOrder [⟨"rtl/a.sv", false, none⟩, ⟨"include/b.svh", true, none⟩]).length)
        (hj : j < (manifestOrder [⟨"rtl/a.sv", false, none⟩, ⟨"include/b.svh", true, none⟩]).length),
      (manifestOrder [⟨"rtl/a.sv", false, none⟩, ⟨"include/b.svh", true, none⟩])[i].is_header = true →
      (manifestOrder [⟨"rtl/a.sv", false, none⟩, ⟨"include/b.svh", true, none⟩])[j].is_header = false →
        i < j) ∧
      (manifestOrder [⟨"rtl/a.sv", false, none⟩, ⟨"include/b.svh", true, none⟩]).filter
          (fun e => e.is_header) =
        ([⟨"rtl/a.sv", false, none⟩, ⟨"include/b.svh", true, none⟩] : List Entry).filter
          (fun e => e.is_header) ∧
      (manifestOrder [⟨"rtl/a.sv", false, none⟩, ⟨"include/b.svh", true, none⟩]).filter
          (fun e => !e.is_header) =
        ([⟨"rtl/a.sv", false, none⟩, ⟨"include/b.svh", true, none⟩] : List Entry).filter
          (fun e => !e.is_header) ∧
      (manifestOrder demoRun.final.files_ordered).map Entry.rel =
        ["include/types.svh", "rtl/core.sv", "rtl/dep.sv"] ∧
      demoRun.manifest =
        "CAPI=2:\n\nname: \x22lowrisc:ibex:top:0.1\x22\ndescription: " ++
        "\x22Self-contained Ibex snapshot (from tool filelist; preproc-aware " ++
        "includes; no generators)\x22\n\nfilesets:\n  files_all:\n    files:\n" ++
        "      - include/types.svh: \x7bfile_type: systemVerilogSource, " ++
        "is_include_file: true\x7d\n" ++
        "      - rtl/core.sv: \x7bfile_type: systemVerilogSource\x7d\n" ++
        "      - rtl/dep.sv: \x7bfile_type: systemVerilogSource\x7d\n" ++
        "\ntargets:\n  default:\n    filesets: [files_all]\n    toplevel: ibex_wrapper\n" :=
  C6_headers_before_sources [⟨"rtl/a.sv", false, none⟩, ⟨"include/b.svh", true, none⟩]

/-- Witness for C9: the scenario run into `/exp` and into `/out` emits the
same manifest bytes. -/
theorem C9_witness :
    (runTool demoFS demoCfg [] ["exp"] ["proj", "files.f"] "n" "v").manifest =
        (runTool demoFS demoCfg [] ["out"] ["proj", "files.f"] "n" "v").manifest ∧
      manifestText "n" "v" "t" (([] : List Entry).map id) = manifestText "n" "v" "t" [] :=
  C9_deterministic_manifest demoFS demoCfg ["proj", "files.f"] "n" "v" ["exp"] ["out"]
    [] id "t" (fun _ => ⟨rfl, rfl⟩)
